import Mathlib

/-!
Verification of the FEC recovery-analysis core: recovery graph, multi-source
BFS reachability, recovery characteristics (combination enumeration), and the
random / Gilbert-Elliott loss models.  Go `float64` arithmetic is modelled in
exact rational arithmetic (ℚ); Go `int` values are modelled as `Int` at API
boundaries and as `Nat` where the code guarantees non-negativity.
-/

set_option maxHeartbeats 1000000

/-- The `Mask` interface: `IsProtected packetIndex fecIndex`, with `N` media
packets and `K` FEC packets. -/
structure Mask where
  N : Nat
  K : Nat
  IsProtected : Nat → Nat → Bool

/-- `RecoveryGraph` from `recovery_graph.go`. -/
structure RecoveryGraph where
  numVertices : Nat
  N : Nat
  K : Nat
  mask : Mask

/-- `NewRecoveryGraph`: `numVertices = 2^(N+K)` (written `1 << (N+K)` as in Go). -/
def NewRecoveryGraph (mask : Mask) : RecoveryGraph :=
  { numVertices := 1 <<< (mask.N + mask.K), N := mask.N, K := mask.K, mask := mask }

/-- `NumVertices`. -/
def RecoveryGraph.NumVertices (g : RecoveryGraph) : Nat := g.numVertices

/-- `canUseFECPacket`: the FEC bit `N+fecIndex` is set and every protected
media packet is present (`vertex & (1 << i) != 0` is `Nat.testBit vertex i`). -/
def RecoveryGraph.canUseFECPacket (g : RecoveryGraph) (vertex : Nat) (fecIndex : Nat) : Bool :=
  vertex.testBit (g.N + fecIndex) &&
    (List.range g.N).all fun packetIndex =>
      !(g.mask.IsProtected packetIndex fecIndex) || vertex.testBit packetIndex

/-- `addRecoveryEdges`: for each protected packet, append the vertex with that
packet's bit cleared, provided the destination differs from `vertex`.  Go's
and-not `vertex &^ (1 << packetIndex)` is written `v ^^^ (v &&& m)`, which has
the same bits (`a &^ b = a ^ (a & b)`). -/
def RecoveryGraph.addRecoveryEdges (g : RecoveryGraph) (edges : List Nat) (vertex : Nat)
    (fecIndex : Nat) : List Nat :=
  (List.range g.N).foldl (fun es packetIndex =>
    if g.mask.IsProtected packetIndex fecIndex then
      if vertex ^^^ (vertex &&& (1 <<< packetIndex)) ≠ vertex then
        es ++ [vertex ^^^ (vertex &&& (1 <<< packetIndex))]
      else es
    else es) edges

/-- `GetEdges`: empty for out-of-range vertices, otherwise the recovery edges
contributed by each usable FEC packet in order. -/
def RecoveryGraph.GetEdges (g : RecoveryGraph) (vertex : Int) : List Int :=
  if vertex < 0 ∨ (g.numVertices : Int) ≤ vertex then []
  else
    ((List.range g.K).foldl (fun es fecIndex =>
      if g.canUseFECPacket vertex.toNat fecIndex then
        g.addRecoveryEdges es vertex.toNat fecIndex
      else es) []).map Int.ofNat

/-- Spec-side description of `edgesFrom` (following the claim's words): for each
parity index `j < K` whose parity bit is set and whose protected data indices
are all present, one destination per protected data index: `v` with that data
bit cleared. -/
def specEdgesFrom (mask : Mask) (v : Nat) : List Nat :=
  ((List.range mask.K).filter fun j =>
      v.testBit (mask.N + j) &&
        ((List.range mask.N).all fun d => !(mask.IsProtected d j) || v.testBit d)).flatMap
    fun j => ((List.range mask.N).filter fun d => mask.IsProtected d j).map
      fun d => v.ldiff (2 ^ d)

/-- The example protection pattern: `N = 3`, `K = 1`, parity 0 protects data
packets 0 and 1 only. -/
def exampleMask : Mask :=
  { N := 3, K := 1, IsProtected := fun d j => (d == 0 || d == 1) && j == 0 }

/-- Fuel-driven binary popcount (the fuel makes the recursion structural). -/
def popcountGo : Nat → Nat → Nat
  | 0, _ => 0
  | fuel + 1, x => if x = 0 then 0 else popcountGo fuel (x / 2) + x % 2

/-- Number of set bits of a natural number. -/
def popcount (x : Nat) : Nat := popcountGo x x

/-- The `Graph` interface from `graph.go`: vertex count plus on-demand edge
lookup. -/
structure Graph where
  numVertices : Nat
  GetEdges : Int → List Int

/-- `NumVertices` of the `Graph` interface. -/
def Graph.NumVertices (g : Graph) : Nat := g.numVertices

/-- State of the BFS traversal: Go's `visited` array (as the set of marked
vertices), the accumulated `reachableVertices` slice, and the FIFO queue. -/
structure BFSState where
  visited : Finset Int
  reach : List Int
  queue : List Int

/-- Handling of one candidate vertex, shared verbatim by the source-seeding
loop and the neighbor loop of `BFS`: skip out-of-range, skip already-visited,
otherwise mark visited, append to the result and enqueue. -/
def pushVertex (g : Graph) (st : BFSState) (v : Int) : BFSState :=
  if v < 0 ∨ (g.numVertices : Int) ≤ v then st
  else if v ∈ st.visited then st
  else ⟨insert v st.visited, st.reach ++ [v], st.queue ++ [v]⟩

/-- The BFS main loop.  The fuel only bounds the number of iterations: each
iteration dequeues one vertex and every vertex is enqueued at most once, so
`numVertices` fuel always suffices (proved below); Go's loop runs until the
queue is empty. -/
def bfsAux (g : Graph) : Nat → BFSState → List Int
  | 0, st => st.reach
  | fuel + 1, st =>
    match st.queue with
    | [] => st.reach
    | u :: rest =>
      bfsAux g fuel ((g.GetEdges u).foldl (pushVertex g) ⟨st.visited, st.reach, rest⟩)

/-- `BFS` from `graph.go`: early return on an empty source list, then seed the
queue with the distinct valid sources and process in FIFO order. -/
def BFS (g : Graph) (sources : List Int) : List Int :=
  if sources = [] then []
  else bfsAux g g.numVertices (sources.foldl (pushVertex g) ⟨∅, [], []⟩)

/-- Reachability from some in-range source by directed edges, never leaving
the range `[0, numVertices)`. -/
inductive Reachable (g : Graph) (sources : List Int) : Int → Prop
  | source {v : Int} : v ∈ sources → 0 ≤ v → v < (g.numVertices : Int) →
      Reachable g sources v
  | step {u v : Int} : Reachable g sources u → v ∈ g.GetEdges u → 0 ≤ v →
      v < (g.numVertices : Int) → Reachable g sources v

/-- Loop invariant of `BFS` (everything except queue-closedness): visited
vertices are in range, the result list mirrors the visited set without
duplicates, queued vertices are visited, and visited vertices are reachable. -/
structure BFSInv (g : Graph) (sources : List Int) (st : BFSState) : Prop where
  sub : ∀ v ∈ st.visited, 0 ≤ v ∧ v < (g.numVertices : Int)
  mem_iff : ∀ v, v ∈ st.reach ↔ v ∈ st.visited
  nodup : st.reach.Nodup
  queue_sub : ∀ v ∈ st.queue, v ∈ st.visited
  sound : ∀ v ∈ st.visited, Reachable g sources v

/-- Queue-closedness: a visited vertex no longer in the queue has all its
in-range neighbors visited. -/
def BFSClosed (g : Graph) (st : BFSState) : Prop :=
  ∀ u ∈ st.visited, u ∉ st.queue → ∀ v ∈ g.GetEdges u, 0 ≤ v →
    v < (g.numVertices : Int) → v ∈ st.visited

/-- Gosper's next-combination step from `generateCombinations`: isolate the
rightmost set bit (`combination & -combination` in two's complement, written
`c ^^^ (c &&& (c - 1))`, which has the same bits for a non-negative `c`), add
it, and redistribute the shifted-out low run. -/
def gosperNext (c : Nat) : Nat :=
  let rightmostMovable := c ^^^ (c &&& (c - 1))
  let temp := c + rightmostMovable
  temp ||| (((c ^^^ temp) / rightmostMovable) >>> 2)

/-- The enumeration loop of `generateCombinations`.  The fuel only bounds the
iteration count: the combination strictly increases each round and the loop
stops beyond `maxCombination`, so `maxCombination + 1 - start` fuel always
suffices. -/
def genCombLoop (maxCombination : Nat) (callback : Nat → Bool) : Nat → Nat → Bool
  | 0, _ => false
  | fuel + 1, combination =>
    if combination ≤ maxCombination then
      if callback combination then true
      else
        let rightmostMovable := combination ^^^ (combination &&& (combination - 1))
        let temp := combination + rightmostMovable
        if maxCombination < temp then false
        else genCombLoop maxCombination callback fuel
          (temp ||| (((combination ^^^ temp) / rightmostMovable) >>> 2))
    else false

/-- `generateCombinations` from `recovery_characteristics.go`: all `n`-bit
values with exactly `k` bits set, in increasing order, with early termination
as soon as the callback returns true. -/
def generateCombinations (n k : Nat) (callback : Nat → Bool) : Bool :=
  if k = 0 then callback 0
  else if k > n then false
  else
    genCombLoop (((1 <<< k) - 1) <<< (n - k)) callback
      ((((1 <<< k) - 1) <<< (n - k)) + 1) ((1 <<< k) - 1)

/-- Spec-side list of combinations (following the claim's words): the integers
with exactly `k` bits set among the low `n` bits, in increasing order. -/
def combinationsSpec (n k : Nat) : List Nat :=
  (List.range (2 ^ n)).filter fun c => popcount c = k

/-- `RecoveryCharacteristics` result record. -/
structure RecoveryCharacteristics where
  MinLostPacketsForNonRecovery : Int
  MinConsecutiveLostForNonRecovery : Int

/-- `hasNonRecoverablePattern`: some loss pattern with `numLost` lost packets
has its delivery pattern (`((1<<total)-1) ^ lossPattern`) outside the
reachable set. -/
def hasNonRecoverablePattern (N K totalPackets numLost : Nat) (reachableSet : List Int) : Bool :=
  generateCombinations totalPackets numLost fun lossPattern =>
    !(decide (((((1 <<< totalPackets) - 1) ^^^ lossPattern : Nat) : Int) ∈ reachableSet))

/-- The `numLost` loop of `findMinLostPacketsForNonRecovery` (fuel-driven;
`totalPackets + 1` fuel covers the whole range). -/
def findMinLostGo (N K totalPackets : Nat) (reachableSet : List Int) : Nat → Nat → Int
  | 0, _ => -1
  | fuel + 1, numLost =>
    if numLost ≤ totalPackets then
      if hasNonRecoverablePattern N K totalPackets numLost reachableSet then (numLost : Int)
      else findMinLostGo N K totalPackets reachableSet fuel (numLost + 1)
    else -1

/-- `findMinLostPacketsForNonRecovery`. -/
def findMinLostPacketsForNonRecovery (N K totalPackets : Nat) (reachableSet : List Int) : Int :=
  findMinLostGo N K totalPackets reachableSet (totalPackets + 1) 1

/-- The loss pattern with bits `[startPos, startPos + consecutiveLen)` set,
accumulated bit by bit as in the Go inner loop. -/
def consecutiveLossPattern (startPos consecutiveLen : Nat) : Nat :=
  (List.range' startPos consecutiveLen).foldl (fun p i => p ||| (1 <<< i)) 0

/-- The inner start-position loop of `findMinConsecutiveLostForNonRecovery`:
some window of `consecutiveLen` consecutive losses is non-recoverable. -/
def hasNonRecoverableConsecutive (totalPackets consecutiveLen : Nat)
    (reachableSet : List Int) : Bool :=
  (List.range (totalPackets - consecutiveLen + 1)).any fun startPos =>
    !(decide (((((1 <<< totalPackets) - 1) ^^^
      consecutiveLossPattern startPos consecutiveLen : Nat) : Int) ∈ reachableSet))

/-- The run-length loop of `findMinConsecutiveLostForNonRecovery`. -/
def findMinConsecutiveGo (totalPackets : Nat) (reachableSet : List Int) : Nat → Nat → Int
  | 0, _ => -1
  | fuel + 1, consecutiveLen =>
    if consecutiveLen ≤ totalPackets then
      if hasNonRecoverableConsecutive totalPackets consecutiveLen reachableSet then
        (consecutiveLen : Int)
      else findMinConsecutiveGo totalPackets reachableSet fuel (consecutiveLen + 1)
    else -1

/-- `findMinConsecutiveLostForNonRecovery`. -/
def findMinConsecutiveLostForNonRecovery (N K totalPackets : Nat)
    (reachableSet : List Int) : Int :=
  findMinConsecutiveGo totalPackets reachableSet (totalPackets + 1) 1

/-- `CalculateRecoveryCharacteristicsFromReachable`. -/
def CalculateRecoveryCharacteristicsFromReachable (N K : Nat)
    (reachable : List Int) : RecoveryCharacteristics :=
  { MinLostPacketsForNonRecovery :=
      findMinLostPacketsForNonRecovery N K (N + K) reachable
    MinConsecutiveLostForNonRecovery :=
      findMinConsecutiveLostForNonRecovery N K (N + K) reachable }

/-- `RandomLossModel` from `random_loss_model.go`; `float64` probabilities are
modelled exactly in ℚ. -/
structure RandomLossModel where
  P : ℚ

/-- `NewRandomLossModel`. -/
def NewRandomLossModel (p : ℚ) : RandomLossModel := ⟨p⟩

/-- `RandomLossModel.CalculateProbability`:
`p^(number of zeros) * (1-p)^(number of ones)` over the low `N` bits, `0` for
`N ≤ 0`. -/
def RandomLossModel.CalculateProbability (m : RandomLossModel) (vertex : Nat) (N : Nat) : ℚ :=
  if N = 0 then 0
  else
    m.P ^ ((List.range N).filter fun i => !vertex.testBit i).length *
      (1 - m.P) ^ ((List.range N).filter fun i => vertex.testBit i).length

/-- `RandomLossModel.GetAverageLossProbability`. -/
def RandomLossModel.GetAverageLossProbability (m : RandomLossModel) : ℚ := m.P

/-- `GilbertElliotLossModel` parameters and the precomputed steady-state
probabilities; the mutable cache is threaded explicitly through the
probability calls below. -/
structure GilbertElliotLossModel where
  Pe0 : ℚ
  Pe1 : ℚ
  P01 : ℚ
  P10 : ℚ
  steadyState0 : ℚ
  steadyState1 : ℚ

/-- `NewGilbertElliotLossModel`: steady state `π₀ = p10/(p01+p10)`,
`π₁ = p01/(p01+p10)` when the denominator is positive, else `0.5` each. -/
def NewGilbertElliotLossModel (pe0 pe1 p01 p10 : ℚ) : GilbertElliotLossModel :=
  if p01 + p10 > 0 then
    { Pe0 := pe0, Pe1 := pe1, P01 := p01, P10 := p10,
      steadyState0 := p10 / (p01 + p10), steadyState1 := p01 / (p01 + p10) }
  else
    { Pe0 := pe0, Pe1 := pe1, P01 := p01, P10 := p10,
      steadyState0 := 1 / 2, steadyState1 := 1 / 2 }

/-- `NewGilbertLossModel` (`Pe0 = 0`). -/
def NewGilbertLossModel (pe1 p01 p10 : ℚ) : GilbertElliotLossModel :=
  NewGilbertElliotLossModel 0 pe1 p01 p10

/-- `cacheKey` for the memoization cache. -/
structure cacheKey where
  pattern : Nat
  length : Nat
  initState : Nat
deriving DecidableEq

/-- The memoization cache, modelled as an association list (the Go map). -/
def cacheLookup (cache : List (cacheKey × ℚ)) (key : cacheKey) : Option ℚ :=
  match cache.find? fun kv => kv.1 = key with
  | some kv => some kv.2
  | none => none

/-- The DP table of `computePatternProbabilityDP`:
`dp[i][state] = probability of observing pattern[0..i-1] and ending in state`. -/
def geDPTable (m : GilbertElliotLossModel) (pattern : Nat) (initState : Nat) : Nat → ℚ × ℚ
  | 0 => if initState = 0 then (1, 0) else (0, 1)
  | i + 1 =>
    let prev := geDPTable m pattern initState i
    let packetDelivered := pattern.testBit i
    (if packetDelivered then
        prev.1 * (1 - m.P01) * (1 - m.Pe0) + prev.2 * m.P10 * (1 - m.Pe0)
      else
        prev.1 * (1 - m.P01) * m.Pe0 + prev.2 * m.P10 * m.Pe0,
     if packetDelivered then
        prev.1 * m.P01 * (1 - m.Pe1) + prev.2 * (1 - m.P10) * (1 - m.Pe1)
      else
        prev.1 * m.P01 * m.Pe1 + prev.2 * (1 - m.P10) * m.Pe1)

/-- `computePatternProbabilityDP`: total probability `dp[length][0] + dp[length][1]`. -/
def GilbertElliotLossModel.computePatternProbabilityDP (m : GilbertElliotLossModel)
    (pattern length initState : Nat) : ℚ :=
  (geDPTable m pattern initState length).1 + (geDPTable m pattern initState length).2

/-- `calculatePatternProbability`: `1` for length `0`, otherwise serve from the
cache or compute by DP and populate the cache. -/
def GilbertElliotLossModel.calculatePatternProbability (m : GilbertElliotLossModel)
    (cache : List (cacheKey × ℚ)) (pattern length initState : Nat) :
    ℚ × List (cacheKey × ℚ) :=
  if length = 0 then (1, cache)
  else
    match cacheLookup cache ⟨pattern, length, initState⟩ with
    | some prob => (prob, cache)
    | none =>
      (m.computePatternProbabilityDP pattern length initState,
        (⟨pattern, length, initState⟩, m.computePatternProbabilityDP pattern length initState)
          :: cache)

/-- `CalculateProbability` with the cache state made explicit: `0` for
`N ≤ 0`, else the steady-state mixture of the two conditional DPs. -/
def GilbertElliotLossModel.CalculateProbabilityS (m : GilbertElliotLossModel)
    (cache : List (cacheKey × ℚ)) (vertex N : Nat) : ℚ × List (cacheKey × ℚ) :=
  if N = 0 then (0, cache)
  else
    let r0 := m.calculatePatternProbability cache vertex N 0
    let r1 := m.calculatePatternProbability r0.2 vertex N 1
    (m.steadyState0 * r0.1 + m.steadyState1 * r1.1, r1.2)

/-- `ClearCache`: replaces the cache with a fresh empty map. -/
def GilbertElliotLossModel.ClearCache (_cache : List (cacheKey × ℚ)) :
    List (cacheKey × ℚ) := []

/-- `CalculateProbability` observed on a freshly constructed model (empty
cache). -/
def GilbertElliotLossModel.CalculateProbability (m : GilbertElliotLossModel)
    (vertex N : Nat) : ℚ :=
  (m.CalculateProbabilityS [] vertex N).1

/-- `GetSteadyStateProbabilities`. -/
def GilbertElliotLossModel.GetSteadyStateProbabilities (m : GilbertElliotLossModel) : ℚ × ℚ :=
  (m.steadyState0, m.steadyState1)

/-- `GetAverageLossProbability`: `π₀·Pe0 + π₁·Pe1`. -/
def GilbertElliotLossModel.GetAverageLossProbability (m : GilbertElliotLossModel) : ℚ :=
  m.steadyState0 * m.Pe0 + m.steadyState1 * m.Pe1

/-- Every cache entry records exactly the DP value of its key. -/
def CacheValid (m : GilbertElliotLossModel) (cache : List (cacheKey × ℚ)) : Prop :=
  ∀ kv ∈ cache, kv.2 = m.computePatternProbabilityDP kv.1.pattern kv.1.length kv.1.initState

/-- Spec-side (following the claims' words): the loss pattern `pat` maps to
delivery pattern `((1<<total)-1) XOR pat`, and is non-recoverable exactly when
that delivery pattern is absent from the reachable set. -/
def NonRecoverableLoss (total : Nat) (R : List Int) (pat : Nat) : Prop :=
  (((2 ^ total - 1) ^^^ pat : Nat) : Int) ∉ R

/-- Spec-side: some loss pattern with exactly `numLost` bits set among the low
`total` bits is non-recoverable. -/
def ExistsNonRecovWithCount (total : Nat) (R : List Int) (numLost : Nat) : Prop :=
  ∃ pat, pat < 2 ^ total ∧ popcount pat = numLost ∧ NonRecoverableLoss total R pat

/-- Spec-side: some run of exactly `runLength` consecutive losses (bits
`[start, start+runLength)` set) is non-recoverable. -/
def ExistsNonRecovRun (total : Nat) (R : List Int) (runLength : Nat) : Prop :=
  ∃ start, start + runLength ≤ total ∧
    NonRecoverableLoss total R ((2 ^ runLength - 1) * 2 ^ start)

section FoldLemmas

variable {α β : Type _}

theorem foldl_append_flatMap (f : α → List β) (l : List α) (es : List β) :
    l.foldl (fun es x => es ++ f x) es = es ++ l.flatMap f := by
  induction l generalizing es with
  | nil => simp
  | cons x xs ih => simp [List.foldl_cons, ih, List.flatMap_cons]

theorem flatMap_if_singleton (p : α → Bool) (h : α → β) (l : List α) :
    (l.flatMap fun x => if p x then [h x] else []) = (l.filter p).map h := by
  induction l with
  | nil => simp
  | cons x xs ih =>
    by_cases hx : p x <;> simp [List.flatMap_cons, hx, ih, List.filter_cons]

theorem flatMap_if_nil (p : α → Bool) (f : α → List β) (l : List α) :
    (l.flatMap fun x => if p x then f x else []) = (l.filter p).flatMap f := by
  induction l with
  | nil => simp
  | cons x xs ih =>
    by_cases hx : p x <;> simp [List.flatMap_cons, hx, ih, List.filter_cons]

end FoldLemmas

theorem ldiff_two_pow_of_testBit_false {v : Nat} {d : Nat} (h : v.testBit d = false) :
    v.ldiff (2 ^ d) = v := by
  apply Nat.eq_of_testBit_eq
  intro i
  rw [Nat.testBit_ldiff]
  rcases eq_or_ne d i with rfl | hne
  · simp [h]
  · simp [Nat.testBit_two_pow_of_ne hne]

theorem ldiff_two_pow_ne {v : Nat} {d : Nat} (h : v.testBit d = true) :
    v.ldiff (2 ^ d) ≠ v := by
  intro heq
  have : (v.ldiff (2 ^ d)).testBit d = v.testBit d := by rw [heq]
  rw [Nat.testBit_ldiff, Nat.testBit_two_pow_self, h] at this
  simp at this

theorem one_shiftLeft (d : Nat) : 1 <<< d = 2 ^ d := by
  rw [Nat.shiftLeft_eq, one_mul]

theorem xor_land_eq_ldiff (v m : Nat) : v ^^^ (v &&& m) = v.ldiff m := by
  apply Nat.eq_of_testBit_eq
  intro i
  rw [Nat.testBit_xor, Nat.testBit_land, Nat.testBit_ldiff]
  cases v.testBit i <;> cases m.testBit i <;> rfl

/-- `addRecoveryEdges` appends, after the accumulator, one cleared-bit
destination per protected-and-present data index. -/
theorem addRecoveryEdges_eq (g : RecoveryGraph) (es : List Nat) (v : Nat) (j : Nat) :
    g.addRecoveryEdges es v j =
      es ++ ((List.range g.N).filter fun d => g.mask.IsProtected d j && v.testBit d).map
        fun d => v.ldiff (2 ^ d) := by
  unfold RecoveryGraph.addRecoveryEdges
  have hfun : (fun (es : List Nat) (packetIndex : Nat) =>
      if g.mask.IsProtected packetIndex j then
        if v ^^^ (v &&& (1 <<< packetIndex)) ≠ v then
          es ++ [v ^^^ (v &&& (1 <<< packetIndex))]
        else es
      else es) = fun es d =>
        es ++ (if g.mask.IsProtected d j && v.testBit d then [v.ldiff (2 ^ d)] else []) := by
    funext es d
    rw [one_shiftLeft, xor_land_eq_ldiff]
    by_cases hp : g.mask.IsProtected d j
    · by_cases hb : v.testBit d
      · simp [hp, hb, ldiff_two_pow_ne hb]
      · simp only [Bool.not_eq_true] at hb
        simp [hp, hb, ldiff_two_pow_of_testBit_false hb]
    · simp [hp]
  rw [hfun, foldl_append_flatMap, flatMap_if_singleton]

/-- For a valid vertex, `GetEdges` is the concatenation over usable FEC indices
of the per-FEC recovery edges. -/
theorem getEdges_valid (g : RecoveryGraph) (vertex : Int)
    (h : ¬(vertex < 0 ∨ (g.numVertices : Int) ≤ vertex)) :
    g.GetEdges vertex =
      (((List.range g.K).filter fun j => g.canUseFECPacket vertex.toNat j).flatMap
        fun j => ((List.range g.N).filter fun d =>
            g.mask.IsProtected d j && vertex.toNat.testBit d).map
          fun d => vertex.toNat.ldiff (2 ^ d)).map Int.ofNat := by
  unfold RecoveryGraph.GetEdges
  rw [if_neg h]
  congr 1
  have hfun : (fun (es : List Nat) (fecIndex : Nat) =>
      if g.canUseFECPacket vertex.toNat fecIndex then
        g.addRecoveryEdges es vertex.toNat fecIndex
      else es) = fun es j =>
        es ++ (if g.canUseFECPacket vertex.toNat j then
          ((List.range g.N).filter fun d =>
              g.mask.IsProtected d j && vertex.toNat.testBit d).map
            (fun d => vertex.toNat.ldiff (2 ^ d)) else []) := by
    funext es j
    by_cases hc : g.canUseFECPacket vertex.toNat j
    · simp [hc, addRecoveryEdges_eq]
    · simp [hc]
  rw [hfun, foldl_append_flatMap, flatMap_if_nil, List.nil_append]

theorem flatMap_congr_mem {α β : Type _} {l : List α} {f g : α → List β}
    (h : ∀ a ∈ l, f a = g a) : l.flatMap f = l.flatMap g := by
  induction l with
  | nil => rfl
  | cons x xs ih =>
    simp only [List.flatMap_cons]
    rw [h x (List.mem_cons_self x xs), ih fun a ha => h a (List.mem_cons_of_mem x ha)]

/-- For a valid vertex, `GetEdges` matches the spec-side edge description. -/
theorem getEdges_eq_spec (mask : Mask) (vertex : Int)
    (h : ¬(vertex < 0 ∨ (((NewRecoveryGraph mask).numVertices : Nat) : Int) ≤ vertex)) :
    (NewRecoveryGraph mask).GetEdges vertex = (specEdgesFrom mask vertex.toNat).map Int.ofNat := by
  rw [getEdges_valid _ _ h]
  unfold specEdgesFrom
  congr 1
  apply flatMap_congr_mem
  intro j hj
  rw [List.mem_filter] at hj
  have hcan := hj.2
  unfold RecoveryGraph.canUseFECPacket at hcan
  simp only [NewRecoveryGraph, Bool.and_eq_true, List.all_eq_true] at hcan
  congr 1
  apply List.filter_congr
  intro d hd
  by_cases hp : mask.IsProtected d j
  · have := hcan.2 d hd
    simp only [hp, Bool.not_true, Bool.false_or] at this
    simp [NewRecoveryGraph, hp, this]
  · simp [NewRecoveryGraph, hp]

/-- C1: `GetEdges` on an out-of-range vertex returns the empty sequence, and on
a valid vertex returns exactly the multiset with, for each usable parity index
`j` (parity bit set, all protected data present), one destination per protected
data index `d`: the vertex with bit `d` cleared.  In particular for `N = 3`,
`K = 1` with parity 0 protecting data 0 and 1 only, `GetEdges 11 = {9, 10}`
and `GetEdges 3 = {}`. -/
theorem claim_C1_getEdges :
    (∀ (mask : Mask) (vertex : Int),
      ((NewRecoveryGraph mask).GetEdges vertex : Multiset Int) =
        if 0 ≤ vertex ∧ vertex < ((2 ^ (mask.N + mask.K) : Nat) : Int) then
          ((specEdgesFrom mask vertex.toNat).map Int.ofNat : Multiset Int)
        else 0) ∧
    ((NewRecoveryGraph exampleMask).GetEdges 11 : Multiset Int) = {9, 10} ∧
    ((NewRecoveryGraph exampleMask).GetEdges 3 : Multiset Int) = 0 := by
  refine ⟨fun mask vertex => ?_, by decide, by decide⟩
  have hnum : ((NewRecoveryGraph mask).numVertices : Int) = ((2 ^ (mask.N + mask.K) : Nat) : Int) := by
    simp [NewRecoveryGraph, one_shiftLeft]
  by_cases h : 0 ≤ vertex ∧ vertex < ((2 ^ (mask.N + mask.K) : Nat) : Int)
  · rw [if_pos h, getEdges_eq_spec]
    rw [hnum]
    omega
  · rw [if_neg h]
    unfold RecoveryGraph.GetEdges
    rw [if_pos]
    · rfl
    · rw [hnum]
      omega

theorem popcountGo_zero (fuel : Nat) : popcountGo fuel 0 = 0 := by
  cases fuel <;> rfl

theorem popcountGo_congr : ∀ (f g x : Nat), x ≤ f → x ≤ g → popcountGo f x = popcountGo g x := by
  intro f
  induction f with
  | zero =>
    intro g x hf _
    have hx : x = 0 := by omega
    subst hx
    rw [popcountGo_zero, popcountGo_zero]
  | succ f ih =>
    intro g x hf hg
    rcases Nat.eq_zero_or_pos x with rfl | hx
    · rw [popcountGo_zero, popcountGo_zero]
    · rcases g with _ | g
      · omega
      · show (if x = 0 then 0 else popcountGo f (x / 2) + x % 2) =
          (if x = 0 then 0 else popcountGo g (x / 2) + x % 2)
        rw [if_neg (by omega), if_neg (by omega), ih g (x / 2) (by omega) (by omega)]

theorem popcount_div_two (x : Nat) : popcount x = popcount (x / 2) + x % 2 := by
  rcases Nat.eq_zero_or_pos x with rfl | hx
  · rfl
  · unfold popcount
    rcases x with _ | x'
    · omega
    · show (if x' + 1 = 0 then 0 else popcountGo x' ((x' + 1) / 2) + (x' + 1) % 2) = _
      rw [if_neg (by omega)]
      congr 1
      exact popcountGo_congr x' ((x' + 1) / 2) ((x' + 1) / 2) (by omega) (by omega)

theorem popcount_zero : popcount 0 = 0 := rfl

theorem popcount_one : popcount 1 = 1 := rfl

theorem popcount_two_mul_add (a : Nat) (b : Nat) (hb : b < 2) :
    popcount (2 * a + b) = popcount a + b := by
  rw [popcount_div_two (2 * a + b)]
  have h1 : (2 * a + b) / 2 = a := by omega
  have h2 : (2 * a + b) % 2 = b := by omega
  rw [h1, h2]

theorem popcount_mul_pow_add : ∀ (i a b : Nat), b < 2 ^ i →
    popcount (a * 2 ^ i + b) = popcount a + popcount b := by
  intro i
  induction i with
  | zero =>
    intro a b hb
    interval_cases b
    simp [popcount_zero]
  | succ i ih =>
    intro a b hb
    have key : a * 2 ^ (i + 1) + b = 2 * (a * 2 ^ i + b / 2) + b % 2 := by
      have := Nat.div_add_mod b 2
      ring_nf
      omega
    rw [key, popcount_two_mul_add _ _ (by omega), ih a (b / 2) (by
      have : b < 2 ^ i * 2 := by rw [← pow_succ]; exact hb
      omega)]
    rw [popcount_div_two b]
    omega

theorem mul_single_add_mod (a m c : Nat) (h : c < m) : (a * m + c) % m = c := by
  rw [Nat.add_comm, Nat.add_mul_mod_self_right, Nat.mod_eq_of_lt h]

theorem mul_single_add_div (a m c : Nat) (hm : 0 < m) (h : c < m) : (a * m + c) / m = a := by
  rw [Nat.add_comm, Nat.add_mul_div_right _ _ hm, Nat.div_eq_of_lt h, Nat.zero_add]

theorem popcount_two_pow (i : Nat) : popcount (2 ^ i) = 1 := by
  have := popcount_mul_pow_add i 1 0 (Nat.pos_pow_of_pos i (by omega))
  simpa [popcount_zero, popcount_one] using this

/-- Decomposition of a number around a set bit: if bit `i` of `v` is set then
`v = (v / 2^(i+1)) * 2^(i+1) + 2^i + v % 2^i`. -/
theorem decomp_of_testBit {v i : Nat} (h : v.testBit i = true) :
    v = (v / 2 ^ (i + 1)) * 2 ^ (i + 1) + 2 ^ i + v % 2 ^ i := by
  have hd : v / 2 ^ i % 2 = 1 := by
    have := @Nat.testBit_to_div_mod i v
    rw [h] at this
    exact of_decide_eq_true this.symm
  have e1 : v / 2 ^ i = 2 * (v / 2 ^ (i + 1)) + 1 := by
    have : v / 2 ^ i / 2 = v / 2 ^ (i + 1) := by
      rw [Nat.div_div_eq_div_mul, ← pow_succ]
    omega
  have e2 : v = (v / 2 ^ i) * 2 ^ i + v % 2 ^ i := by
    have h0 := Nat.div_add_mod v (2 ^ i)
    rw [Nat.mul_comm] at h0
    exact h0.symm
  calc v = (v / 2 ^ i) * 2 ^ i + v % 2 ^ i := e2
    _ = (2 * (v / 2 ^ (i + 1)) + 1) * 2 ^ i + v % 2 ^ i := by rw [← e1]
    _ = (v / 2 ^ (i + 1)) * 2 ^ (i + 1) + 2 ^ i + v % 2 ^ i := by ring

theorem testBit_sub_two_pow {v i : Nat} (h : v.testBit i = true) :
    ∀ j, (v - 2 ^ i).testBit j = (v.testBit j && !(decide (j = i))) := by
  intro j
  set a := v / 2 ^ (i + 1) with ha
  set c := v % 2 ^ i with hc
  have hclt : c < 2 ^ i := Nat.mod_lt _ (Nat.pos_pow_of_pos i (by omega))
  have hv : v = a * 2 ^ (i + 1) + 2 ^ i + c := decomp_of_testBit h
  have hsub : v - 2 ^ i = a * 2 ^ (i + 1) + c := by omega
  rcases Nat.lt_or_ge j (i + 1) with hj | hj
  · -- low bits: compare modulo 2^(i+1)
    have hpow : (2 : Nat) ^ i < 2 ^ (i + 1) := by rw [pow_succ]; omega
    have hm1 : (v - 2 ^ i) % 2 ^ (i + 1) = c := by
      rw [hsub, mul_single_add_mod _ _ _ (by omega)]
    have hm2 : v % 2 ^ (i + 1) = 2 ^ i + c := by
      conv_lhs => rw [hv, Nat.add_assoc]
      rw [mul_single_add_mod _ _ _ (by omega)]
    have l1 : (v - 2 ^ i).testBit j = c.testBit j := by
      have h0 := Nat.testBit_mod_two_pow (v - 2 ^ i) (i + 1) j
      rw [hm1] at h0
      simp [hj] at h0
      exact h0.symm
    have l2 : v.testBit j = (2 ^ i + c).testBit j := by
      have h0 := Nat.testBit_mod_two_pow v (i + 1) j
      rw [hm2] at h0
      simp [hj] at h0
      exact h0.symm
    rcases Nat.lt_or_ge j i with hji | hji
    · rw [l1, l2, Nat.testBit_two_pow_add_gt hji]
      simp [Nat.ne_of_lt hji]
    · have hjeq : j = i := by omega
      subst hjeq
      have hcb : c.testBit j = false := Nat.testBit_lt_two_pow hclt
      rw [l1, hcb]
      simp
  · -- high bits: compare the quotients by 2^(i+1)
    have hne : j ≠ i := by omega
    have hd1 : (v - 2 ^ i) / 2 ^ (i + 1) = a := by
      have hpow : (2 : Nat) ^ i < 2 ^ (i + 1) := by rw [pow_succ]; omega
      rw [hsub, mul_single_add_div _ _ _ (by positivity) (by omega)]
    have hd2 : v / 2 ^ (i + 1) = a := rfl
    obtain ⟨j', rfl⟩ : ∃ j', j = (i + 1) + j' := ⟨j - (i + 1), by omega⟩
    have e1 : (v - 2 ^ i).testBit ((i + 1) + j') = ((v - 2 ^ i) / 2 ^ (i + 1)).testBit j' := by
      rw [← Nat.shiftRight_eq_div_pow, Nat.testBit_shiftRight]
    have e2 : v.testBit ((i + 1) + j') = (v / 2 ^ (i + 1)).testBit j' := by
      rw [← Nat.shiftRight_eq_div_pow, Nat.testBit_shiftRight]
    rw [e1, e2, hd1, hd2]
    simp [hne]

theorem ldiff_two_pow_eq_sub {v i : Nat} (h : v.testBit i = true) :
    v.ldiff (2 ^ i) = v - 2 ^ i := by
  apply Nat.eq_of_testBit_eq
  intro j
  rw [Nat.testBit_ldiff, testBit_sub_two_pow h j, Nat.testBit_two_pow]
  by_cases hji : j = i
  · subst hji; simp
  · have hij : ¬(i = j) := fun hh => hji hh.symm
    simp [hji, hij]

theorem popcount_sub_two_pow {v i : Nat} (h : v.testBit i = true) :
    popcount (v - 2 ^ i) + 1 = popcount v := by
  set a := v / 2 ^ (i + 1) with ha
  set c := v % 2 ^ i with hc
  have hclt : c < 2 ^ i := Nat.mod_lt _ (Nat.pos_pow_of_pos i (by omega))
  have hv : v = a * 2 ^ (i + 1) + 2 ^ i + c := decomp_of_testBit h
  have hsub : v - 2 ^ i = a * 2 ^ (i + 1) + c := by omega
  have hpow : (2 : Nat) ^ i < 2 ^ (i + 1) := by rw [pow_succ]; omega
  have h1 : popcount (v - 2 ^ i) = popcount a + popcount c := by
    rw [hsub]
    exact popcount_mul_pow_add (i + 1) a c (by omega)
  have h2 : popcount v = popcount a + (1 + popcount c) := by
    have hv' : v = a * 2 ^ (i + 1) + (2 ^ i + c) := by omega
    rw [hv', popcount_mul_pow_add (i + 1) a (2 ^ i + c) (by omega)]
    congr 1
    have : (2 : Nat) ^ i + c = 1 * 2 ^ i + c := by ring
    rw [this, popcount_mul_pow_add i 1 c hclt, popcount_one]
  omega

theorem two_pow_le_of_testBit {v i : Nat} (h : v.testBit i = true) : 2 ^ i ≤ v := by
  have := decomp_of_testBit h
  omega

/-- Any destination returned by `GetEdges` comes from a valid vertex and clears
one set media bit of it. -/
theorem mem_getEdges {mask : Mask} {v d : Int}
    (hd : d ∈ (NewRecoveryGraph mask).GetEdges v) :
    (0 ≤ v ∧ v < ((NewRecoveryGraph mask).numVertices : Int)) ∧
    ∃ i, i < mask.N ∧ v.toNat.testBit i = true ∧ d = Int.ofNat (v.toNat.ldiff (2 ^ i)) := by
  by_cases h : v < 0 ∨ ((NewRecoveryGraph mask).numVertices : Int) ≤ v
  · unfold RecoveryGraph.GetEdges at hd
    rw [if_pos h] at hd
    simp at hd
  · refine ⟨by omega, ?_⟩
    rw [getEdges_valid _ _ h] at hd
    simp only [List.mem_map, List.mem_flatMap, List.mem_filter, List.mem_range,
      Bool.and_eq_true] at hd
    obtain ⟨x, ⟨j, _, i, ⟨hiN, _, hbit⟩, rfl⟩, rfl⟩ := hd
    exact ⟨i, hiN, hbit, rfl⟩

/-- C10: every destination `d` of `GetEdges v` is `v` with exactly one set
(media) bit cleared, hence `0 ≤ d < v` and `d` is inside the vertex range; and
any walk along edges from `v` has length at most the number of set bits of
`v`. -/
theorem claim_C10_edge_structure :
    (∀ (mask : Mask) (v d : Int), d ∈ (NewRecoveryGraph mask).GetEdges v →
      (∃ i, i < mask.N ∧ v.toNat.testBit i = true ∧ d = Int.ofNat (v.toNat.ldiff (2 ^ i))) ∧
      0 ≤ d ∧ d < v ∧ d < (((NewRecoveryGraph mask).NumVertices : Nat) : Int)) ∧
    (∀ (mask : Mask) (v : Int) (l : List Int),
      List.Chain (fun a b => b ∈ (NewRecoveryGraph mask).GetEdges a) v l →
      l.length ≤ popcount v.toNat) := by
  have key : ∀ (mask : Mask) (v d : Int), d ∈ (NewRecoveryGraph mask).GetEdges v →
      (∃ i, i < mask.N ∧ v.toNat.testBit i = true ∧ d = Int.ofNat (v.toNat.ldiff (2 ^ i))) ∧
      0 ≤ d ∧ d < v ∧ d < (((NewRecoveryGraph mask).NumVertices : Nat) : Int) := by
    intro mask v d hd
    obtain ⟨⟨hv0, hvlt⟩, i, hiN, hbit, hdeq⟩ := mem_getEdges hd
    refine ⟨⟨i, hiN, hbit, hdeq⟩, ?_, ?_, ?_⟩
    · rw [hdeq]; exact Int.ofNat_nonneg _
    · have hp : 0 < 2 ^ i := Nat.pos_pow_of_pos i (by omega)
      have h1 : 2 ^ i ≤ v.toNat := two_pow_le_of_testBit hbit
      have hv : ((v.toNat : Nat) : Int) = v := Int.toNat_of_nonneg hv0
      rw [hdeq, ldiff_two_pow_eq_sub hbit]
      have hco : Int.ofNat (v.toNat - 2 ^ i) = ((v.toNat - 2 ^ i : Nat) : Int) := rfl
      rw [hco]
      omega
    · have hp : 0 < 2 ^ i := Nat.pos_pow_of_pos i (by omega)
      have h1 : 2 ^ i ≤ v.toNat := two_pow_le_of_testBit hbit
      have hv : ((v.toNat : Nat) : Int) = v := Int.toNat_of_nonneg hv0
      rw [hdeq, ldiff_two_pow_eq_sub hbit]
      have hco : Int.ofNat (v.toNat - 2 ^ i) = ((v.toNat - 2 ^ i : Nat) : Int) := rfl
      have hNum : (NewRecoveryGraph mask).NumVertices = (NewRecoveryGraph mask).numVertices := rfl
      rw [hco, hNum]
      omega
  refine ⟨key, fun mask v l => ?_⟩
  induction l generalizing v with
  | nil => intro _; simp
  | cons d l' ih =>
    intro hchain
    rcases hchain with _ | ⟨hedge, hchain'⟩
    obtain ⟨⟨i, _, hbit, hdeq⟩, hd0, _, _⟩ := key mask v d hedge
    have hdn : d.toNat = v.toNat - 2 ^ i := by
      rw [hdeq, ldiff_two_pow_eq_sub hbit]
      exact Int.toNat_ofNat _
    have hpc : popcount d.toNat + 1 = popcount v.toNat := by
      rw [hdn]
      exact popcount_sub_two_pow hbit
    have := ih d hchain'
    simp only [List.length_cons]
    omega

theorem claim_C10_edge_structure_witness :
    ((9 : Int) ∈ (NewRecoveryGraph exampleMask).GetEdges 11 ∧
      (0 ≤ (9 : Int) ∧ (9 : Int) < 11 ∧
        (9 : Int) < (((NewRecoveryGraph exampleMask).NumVertices : Nat) : Int))) ∧
    (List.Chain (fun a b => b ∈ (NewRecoveryGraph exampleMask).GetEdges a) 11 [9] ∧
      ([9] : List Int).length ≤ popcount (11 : Int).toNat) :=
  ⟨⟨by decide, (claim_C10_edge_structure.1 exampleMask 11 9 (by decide)).2⟩,
   ⟨List.Chain.cons (by decide) List.Chain.nil,
    claim_C10_edge_structure.2 exampleMask 11 [9]
      (List.Chain.cons (by decide) List.Chain.nil)⟩⟩

theorem pushVertex_visited_sub (g : Graph) (st : BFSState) (v : Int) :
    st.visited ⊆ (pushVertex g st v).visited := by
  unfold pushVertex
  split_ifs
  · exact Finset.Subset.refl _
  · exact Finset.Subset.refl _
  · exact Finset.subset_insert _ _

theorem pushVertex_queue_sub (g : Graph) (st : BFSState) (v : Int) :
    ∀ w ∈ st.queue, w ∈ (pushVertex g st v).queue := by
  unfold pushVertex
  split_ifs <;> intro w hw
  · exact hw
  · exact hw
  · simp only [List.mem_append]
    exact Or.inl hw

theorem pushVertex_mem (g : Graph) (st : BFSState) (v : Int)
    (h0 : 0 ≤ v) (h1 : v < (g.numVertices : Int)) :
    v ∈ (pushVertex g st v).visited := by
  unfold pushVertex
  split_ifs with hif hmem
  · omega
  · exact hmem
  · exact Finset.mem_insert_self v _

theorem pushVertex_new_in_queue (g : Graph) (st : BFSState) (v : Int) :
    ∀ w ∈ (pushVertex g st v).visited, w ∉ st.visited → w ∈ (pushVertex g st v).queue := by
  unfold pushVertex
  split_ifs with h1 h2 <;> intro w hw hnw
  · exact absurd hw hnw
  · exact absurd hw hnw
  · simp only [Finset.mem_insert] at hw
    simp only [List.mem_append, List.mem_singleton]
    rcases hw with rfl | hw
    · exact Or.inr rfl
    · exact absurd hw hnw

theorem pushVertex_card (g : Graph) (st : BFSState) (v : Int) :
    (pushVertex g st v).visited.card + st.queue.length =
      st.visited.card + (pushVertex g st v).queue.length := by
  unfold pushVertex
  split_ifs with h1 h2
  · rfl
  · rfl
  · simp only [Finset.card_insert_of_not_mem h2, List.length_append, List.length_singleton]
    omega

theorem pushVertex_inv (g : Graph) (sources : List Int) (st : BFSState) (v : Int)
    (hInv : BFSInv g sources st)
    (hv : 0 ≤ v → v < (g.numVertices : Int) → Reachable g sources v) :
    BFSInv g sources (pushVertex g st v) := by
  unfold pushVertex
  split_ifs with h1 h2
  · exact hInv
  · exact hInv
  · have hv0 : 0 ≤ v := by omega
    have hv1 : v < (g.numVertices : Int) := by omega
    have hvnotr : v ∉ st.reach := fun hmem => h2 ((hInv.mem_iff v).mp hmem)
    refine ⟨?_, ?_, ?_, ?_, ?_⟩
    · intro w hw
      rcases Finset.mem_insert.mp hw with rfl | hw
      · exact ⟨hv0, hv1⟩
      · exact hInv.sub w hw
    · intro w
      simp only [List.mem_append, List.mem_singleton, Finset.mem_insert, hInv.mem_iff w]
      tauto
    · rw [List.nodup_append]
      exact ⟨hInv.nodup, List.nodup_singleton v, by
        intro w hw hwv
        rw [List.mem_singleton] at hwv
        exact hvnotr (hwv ▸ hw)⟩
    · intro w hw
      rcases List.mem_append.mp hw with hw | hw
      · exact Finset.mem_insert_of_mem (hInv.queue_sub w hw)
      · rw [List.mem_singleton] at hw
        rcases hw with rfl
        exact Finset.mem_insert_self _ _
    · intro w hw
      rcases Finset.mem_insert.mp hw with rfl | hw
      · exact hv hv0 hv1
      · exact hInv.sound w hw

theorem foldPush_visited_sub (g : Graph) (l : List Int) :
    ∀ st : BFSState, st.visited ⊆ (l.foldl (pushVertex g) st).visited := by
  induction l with
  | nil => intro st; exact Finset.Subset.refl _
  | cons v l' ih =>
    intro st
    exact (pushVertex_visited_sub g st v).trans (ih (pushVertex g st v))

theorem foldPush_queue_sub (g : Graph) (l : List Int) :
    ∀ st : BFSState, ∀ w ∈ st.queue, w ∈ (l.foldl (pushVertex g) st).queue := by
  induction l with
  | nil => intro st w hw; exact hw
  | cons v l' ih =>
    intro st w hw
    exact ih (pushVertex g st v) w (pushVertex_queue_sub g st v w hw)

theorem foldPush_mem (g : Graph) (l : List Int) :
    ∀ st : BFSState, ∀ w ∈ l, 0 ≤ w → w < (g.numVertices : Int) →
      w ∈ (l.foldl (pushVertex g) st).visited := by
  induction l with
  | nil => intro st w hw; exact absurd hw (List.not_mem_nil w)
  | cons v l' ih =>
    intro st w hw h0 h1
    rcases List.mem_cons.mp hw with rfl | hw
    · exact foldPush_visited_sub g l' (pushVertex g st w) (pushVertex_mem g st w h0 h1)
    · exact ih (pushVertex g st v) w hw h0 h1

theorem foldPush_new_in_queue (g : Graph) (l : List Int) :
    ∀ st : BFSState, ∀ w ∈ (l.foldl (pushVertex g) st).visited, w ∉ st.visited →
      w ∈ (l.foldl (pushVertex g) st).queue := by
  induction l with
  | nil => intro st w hw hnw; exact absurd hw hnw
  | cons v l' ih =>
    intro st w hw hnw
    by_cases hmid : w ∈ (pushVertex g st v).visited
    · exact foldPush_queue_sub g l' (pushVertex g st v) w
        (pushVertex_new_in_queue g st v w hmid hnw)
    · exact ih (pushVertex g st v) w hw hmid

theorem foldPush_card (g : Graph) (l : List Int) :
    ∀ st : BFSState, (l.foldl (pushVertex g) st).visited.card + st.queue.length =
      st.visited.card + (l.foldl (pushVertex g) st).queue.length := by
  induction l with
  | nil => intro st; rfl
  | cons v l' ih =>
    intro st
    have h1 := pushVertex_card g st v
    have h2 := ih (pushVertex g st v)
    simp only [List.foldl_cons]
    omega

theorem foldPush_inv (g : Graph) (sources : List Int) (l : List Int) :
    ∀ st : BFSState, BFSInv g sources st →
      (∀ w ∈ l, 0 ≤ w → w < (g.numVertices : Int) → Reachable g sources w) →
      BFSInv g sources (l.foldl (pushVertex g) st) := by
  induction l with
  | nil => intro st hInv _; exact hInv
  | cons v l' ih =>
    intro st hInv hl
    exact ih (pushVertex g st v)
      (pushVertex_inv g sources st v hInv (hl v (List.mem_cons_self v l')))
      (fun w hw => hl w (List.mem_cons_of_mem v hw))

theorem bfsInv_card_le (g : Graph) (sources : List Int) (st : BFSState)
    (hInv : BFSInv g sources st) : st.visited.card ≤ g.numVertices := by
  have hsub : st.visited ⊆ Finset.Ico (0 : Int) (g.numVertices : Int) := by
    intro v hv
    rw [Finset.mem_Ico]
    exact hInv.sub v hv
  have := Finset.card_le_card hsub
  rw [Int.card_Ico] at this
  omega

theorem bfsAux_spec (g : Graph) (sources : List Int) :
    ∀ (fuel : Nat) (st : BFSState), BFSInv g sources st → BFSClosed g st →
      g.numVertices - st.visited.card + st.queue.length ≤ fuel →
      (∀ v ∈ bfsAux g fuel st, Reachable g sources v) ∧
      (∀ v ∈ st.visited, v ∈ bfsAux g fuel st) ∧
      (∀ u v : Int, u ∈ bfsAux g fuel st → v ∈ g.GetEdges u → 0 ≤ v →
        v < (g.numVertices : Int) → v ∈ bfsAux g fuel st) ∧
      (bfsAux g fuel st).Nodup := by
  intro fuel
  induction fuel with
  | zero =>
    intro st hInv hClosed hfuel
    have hq : st.queue = [] := by
      have := bfsInv_card_le g sources st hInv
      have : st.queue.length = 0 := by omega
      exact List.length_eq_zero.mp this
    refine ⟨?_, ?_, ?_, ?_⟩
    · intro v hv
      exact hInv.sound v ((hInv.mem_iff v).mp hv)
    · intro v hv
      exact (hInv.mem_iff v).mpr hv
    · intro u v hu hv h0 h1
      have hu' : u ∈ st.visited := (hInv.mem_iff u).mp hu
      have : v ∈ st.visited := hClosed u hu' (by rw [hq]; exact List.not_mem_nil u) v hv h0 h1
      exact (hInv.mem_iff v).mpr this
    · exact hInv.nodup
  | succ fuel ih =>
    intro st hInv hClosed hfuel
    match hqe : st.queue with
    | [] =>
      have hbfs : bfsAux g (fuel + 1) st = st.reach := by
        show (match st.queue with
          | [] => st.reach
          | u :: rest => bfsAux g fuel ((g.GetEdges u).foldl (pushVertex g)
              ⟨st.visited, st.reach, rest⟩)) = st.reach
        rw [hqe]
      rw [hbfs]
      refine ⟨?_, ?_, ?_, ?_⟩
      · intro v hv
        exact hInv.sound v ((hInv.mem_iff v).mp hv)
      · intro v hv
        exact (hInv.mem_iff v).mpr hv
      · intro u v hu hv h0 h1
        have hu' : u ∈ st.visited := (hInv.mem_iff u).mp hu
        have : v ∈ st.visited := hClosed u hu' (by rw [hqe]; exact List.not_mem_nil u) v hv h0 h1
        exact (hInv.mem_iff v).mpr this
      · exact hInv.nodup
    | u :: rest =>
      have hbfs : bfsAux g (fuel + 1) st =
          bfsAux g fuel ((g.GetEdges u).foldl (pushVertex g) ⟨st.visited, st.reach, rest⟩) := by
        show (match st.queue with
          | [] => st.reach
          | u :: rest => bfsAux g fuel ((g.GetEdges u).foldl (pushVertex g)
              ⟨st.visited, st.reach, rest⟩)) = _
        rw [hqe]
      set st1 : BFSState := ⟨st.visited, st.reach, rest⟩ with hst1
      set st' := (g.GetEdges u).foldl (pushVertex g) st1 with hst'
      have huvis : u ∈ st.visited := hInv.queue_sub u (by rw [hqe]; exact List.mem_cons_self u rest)
      have hureach : Reachable g sources u := hInv.sound u huvis
      have hInv1 : BFSInv g sources st1 := by
        refine ⟨hInv.sub, hInv.mem_iff, hInv.nodup, ?_, hInv.sound⟩
        intro w hw
        exact hInv.queue_sub w (by rw [hqe]; exact List.mem_cons_of_mem u hw)
      have hedges : ∀ w ∈ g.GetEdges u, 0 ≤ w → w < (g.numVertices : Int) →
          Reachable g sources w := fun w hw h0 h1 => Reachable.step hureach hw h0 h1
      have hInv' : BFSInv g sources st' := foldPush_inv g sources _ st1 hInv1 hedges
      have hClosed' : BFSClosed g st' := by
        intro w hw hwq x hx h0 h1
        by_cases hwold : w ∈ st.visited
        · by_cases hwu : w = u
          · subst hwu
            exact foldPush_mem g _ st1 x hx h0 h1
          · have hwrest : w ∉ rest := fun hmem =>
              hwq (foldPush_queue_sub g _ st1 w hmem)
            have hwqold : w ∉ st.queue := by
              rw [hqe]
              intro hmem
              rcases List.mem_cons.mp hmem with h | h
              · exact hwu h
              · exact hwrest h
            exact foldPush_visited_sub g _ st1 (hClosed w hwold hwqold x hx h0 h1)
        · exact absurd (foldPush_new_in_queue g _ st1 w hw hwold) hwq
      have hfuel' : g.numVertices - st'.visited.card + st'.queue.length ≤ fuel := by
        have hcard := foldPush_card g (g.GetEdges u) st1
        have hsub := Finset.card_le_card (foldPush_visited_sub g (g.GetEdges u) st1)
        have hle := bfsInv_card_le g sources st' hInv'
        have hlen : st.queue.length = rest.length + 1 := by rw [hqe]; rfl
        rw [← hst'] at hcard hsub
        simp only [hst1] at hcard hsub
        omega
      obtain ⟨hs, hm, hc, hn⟩ := ih st' hInv' hClosed' hfuel'
      rw [hbfs]
      exact ⟨hs, fun v hv => hm v (foldPush_visited_sub g _ st1 hv), hc, hn⟩

theorem reachable_exists_source {g : Graph} {sources : List Int} {v : Int}
    (h : Reachable g sources v) :
    ∃ s ∈ sources, 0 ≤ s ∧ s < (g.numVertices : Int) := by
  induction h with
  | source hs h0 h1 => exact ⟨_, hs, h0, h1⟩
  | step _ _ _ _ ih => exact ih

/-- C2: `BFS g sources` returns exactly the set of vertices reachable from
the in-range sources (including those sources), with no duplicates; sources
out of range (or duplicated) are ignored, and if no valid source remains the
result is empty. -/
theorem claim_C2_bfs (g : Graph) (sources : List Int) :
    (∀ v, v ∈ BFS g sources ↔ Reachable g sources v) ∧
    (BFS g sources).Nodup ∧
    ((∀ s ∈ sources, s < 0 ∨ (g.numVertices : Int) ≤ s) → BFS g sources = []) := by
  by_cases hempty : sources = []
  · subst hempty
    have hbfs : BFS g [] = [] := by rfl
    refine ⟨?_, by rw [hbfs]; exact List.nodup_nil, fun _ => hbfs⟩
    intro v
    rw [hbfs]
    simp only [List.not_mem_nil, false_iff]
    intro hreach
    obtain ⟨s, hs, _⟩ := reachable_exists_source hreach
    exact List.not_mem_nil s hs
  · have hbfs : BFS g sources =
        bfsAux g g.numVertices (sources.foldl (pushVertex g) ⟨∅, [], []⟩) := by
      unfold BFS
      rw [if_neg hempty]
    set st0 := sources.foldl (pushVertex g) (⟨∅, [], []⟩ : BFSState) with hst0
    have hInv0 : BFSInv g sources st0 := by
      apply foldPush_inv
      · exact ⟨fun v hv => absurd hv (Finset.not_mem_empty v),
          fun v => by simp, List.nodup_nil,
          fun v hv => absurd hv (List.not_mem_nil v),
          fun v hv => absurd hv (Finset.not_mem_empty v)⟩
      · intro w hw h0 h1
        exact Reachable.source hw h0 h1
    have hClosed0 : BFSClosed g st0 := by
      intro w hw hwq x hx h0 h1
      exact absurd (foldPush_new_in_queue g sources ⟨∅, [], []⟩ w hw
        (Finset.not_mem_empty w)) hwq
    have hfuel0 : g.numVertices - st0.visited.card + st0.queue.length ≤ g.numVertices := by
      have hcard := foldPush_card g sources (⟨∅, [], []⟩ : BFSState)
      rw [← hst0] at hcard
      have hle := bfsInv_card_le g sources st0 hInv0
      simp only [Finset.card_empty, List.length_nil] at hcard
      omega
    obtain ⟨hs, hm, hc, hn⟩ := bfsAux_spec g sources g.numVertices st0 hInv0 hClosed0 hfuel0
    rw [hbfs]
    refine ⟨?_, hn, ?_⟩
    · intro v
      constructor
      · exact hs v
      · intro hreach
        induction hreach with
        | source hsrc h0 h1 =>
          exact hm _ (foldPush_mem g sources ⟨∅, [], []⟩ _ hsrc h0 h1)
        | step _ hedge h0 h1 ih => exact hc _ _ ih hedge h0 h1
    · intro hall
      rw [List.eq_nil_iff_forall_not_mem]
      intro v hv
      obtain ⟨s, hsmem, hs0, hs1⟩ := reachable_exists_source (hs v hv)
      rcases hall s hsmem with h | h
      · omega
      · omega

theorem claim_C2_bfs_witness :
    (∀ s ∈ ([-1] : List Int), s < 0 ∨ ((Graph.mk 4 fun _ => []).numVertices : Int) ≤ s) ∧
    BFS (Graph.mk 4 fun _ => []) [-1] = [] :=
  ⟨by decide, (claim_C2_bfs (Graph.mk 4 fun _ => []) [-1]).2.2 (by decide)⟩

theorem popcount_eq_zero {x : Nat} : popcount x = 0 ↔ x = 0 := by
  constructor
  · intro h
    induction x using Nat.strong_induction_on with
    | _ x ih =>
      rcases Nat.eq_zero_or_pos x with rfl | hx
      · rfl
      · rw [popcount_div_two x] at h
        have h2 : x / 2 = 0 := ih (x / 2) (Nat.div_lt_self hx (by omega)) (by omega)
        omega
  · rintro rfl
    rfl

theorem popcount_pred_pow : ∀ s : Nat, popcount (2 ^ s - 1) = s := by
  intro s
  induction s with
  | zero => rfl
  | succ s ih =>
    have h : 2 ^ (s + 1) - 1 = 2 * (2 ^ s - 1) + 1 := by
      have : 1 ≤ 2 ^ s := Nat.one_le_two_pow
      rw [pow_succ]
      omega
    rw [h, popcount_two_mul_add _ _ (by omega), ih]

theorem two_pow_popcount_le (x : Nat) : 2 ^ popcount x ≤ x + 1 := by
  induction x using Nat.strong_induction_on with
  | _ x ih =>
    rcases Nat.eq_zero_or_pos x with rfl | hx
    · simp [popcount_zero]
    · rw [popcount_div_two x, pow_add]
      have h1 := ih (x / 2) (Nat.div_lt_self hx (by omega))
      rcases Nat.mod_two_eq_zero_or_one x with h | h <;> rw [h]
      · have : (2 : Nat) ^ 0 = 1 := rfl
        rw [this, Nat.mul_one]
        omega
      · have : (2 : Nat) ^ 1 = 2 := rfl
        rw [this]
        omega

theorem popcount_complement : ∀ (w x : Nat), x < 2 ^ w →
    popcount x + popcount (2 ^ w - 1 - x) = w := by
  intro w
  induction w with
  | zero =>
    intro x hx
    interval_cases x
    rfl
  | succ w ih =>
    intro x hx
    have hx2 : x / 2 < 2 ^ w := by
      rw [pow_succ] at hx
      omega
    have hcompl : 2 ^ (w + 1) - 1 - x = 2 * (2 ^ w - 1 - x / 2) + (1 - x % 2) := by
      have h1 : 1 ≤ 2 ^ w := Nat.one_le_two_pow
      have h2 := Nat.div_add_mod x 2
      rw [pow_succ]
      omega
    rw [hcompl, popcount_two_mul_add _ _ (by omega), popcount_div_two x]
    have := ih (x / 2) hx2
    omega

theorem le_max_of_popcount {x w : Nat} (hx : x < 2 ^ w) :
    x ≤ 2 ^ w - 2 ^ (w - popcount x) := by
  have hcompl := popcount_complement w x hx
  have hmin := two_pow_popcount_le (2 ^ w - 1 - x)
  have hsub : popcount (2 ^ w - 1 - x) = w - popcount x := by omega
  rw [hsub] at hmin
  have h1 : 1 ≤ 2 ^ w := Nat.one_le_two_pow
  omega

/-- Bits of `a * 2^w + b` with `b < 2^w`: low bits come from `b`, high bits
from `a`. -/
theorem testBit_mul_pow_add (a w b j : Nat) (hb : b < 2 ^ w) :
    (a * 2 ^ w + b).testBit j = if j < w then b.testBit j else a.testBit (j - w) := by
  by_cases hj : j < w
  · rw [if_pos hj]
    have hmod : (a * 2 ^ w + b) % 2 ^ w = b := mul_single_add_mod a (2 ^ w) b hb
    have h0 := Nat.testBit_mod_two_pow (a * 2 ^ w + b) w j
    rw [hmod] at h0
    simp [hj] at h0
    exact h0.symm
  · rw [if_neg hj]
    have hdiv : (a * 2 ^ w + b) / 2 ^ w = a :=
      mul_single_add_div a (2 ^ w) b (Nat.pos_pow_of_pos w (by omega)) hb
    obtain ⟨j', rfl⟩ : ∃ j', j = w + j' := ⟨j - w, by omega⟩
    have e1 : (a * 2 ^ w + b).testBit (w + j') = ((a * 2 ^ w + b) / 2 ^ w).testBit j' := by
      rw [← Nat.shiftRight_eq_div_pow, Nat.testBit_shiftRight]
    rw [e1, hdiv]
    congr 1
    omega

/-- Bits of the run `(2^s - 1) * 2^t`: exactly positions `[t, t+s)`. -/
theorem testBit_run (s t j : Nat) :
    ((2 ^ s - 1) * 2 ^ t).testBit j = decide (t ≤ j ∧ j < t + s) := by
  have h := testBit_mul_pow_add (2 ^ s - 1) t 0 j (Nat.pos_pow_of_pos t (by omega))
  rw [Nat.add_zero] at h
  rw [h]
  by_cases hj : j < t
  · rw [if_pos hj, Nat.zero_testBit]
    symm
    rw [decide_eq_false_iff_not]
    omega
  · rw [if_neg hj, Nat.testBit_two_pow_sub_one, decide_eq_decide]
    omega

/-- Every positive number is an odd number times a power of two. -/
theorem exists_odd_mul_pow (x : Nat) (hx : 0 < x) :
    ∃ t y, x = (2 * y + 1) * 2 ^ t := by
  induction x using Nat.strong_induction_on with
  | _ x ih =>
    rcases Nat.even_or_odd x with he | ho
    · obtain ⟨y, hy⟩ := he
      have hxy : y < x := by omega
      have hypos : 0 < y := by omega
      obtain ⟨t, z, hz⟩ := ih y hxy hypos
      refine ⟨t + 1, z, ?_⟩
      rw [hy, hz, pow_succ]
      ring
    · obtain ⟨y, hy⟩ := ho
      exact ⟨0, y, by rw [pow_zero]; omega⟩

/-- Gosper decomposition: any positive number splits into a high part, a run of
`s + 1` one-bits starting at position `t`, and trailing zeros. -/
theorem exists_gosper_decomp (c : Nat) (hc : 0 < c) :
    ∃ t s a, c = a * 2 ^ (t + s + 2) + (2 ^ (s + 1) - 1) * 2 ^ t := by
  obtain ⟨t, y, hy⟩ := exists_odd_mul_pow c hc
  obtain ⟨s, z, hz⟩ := exists_odd_mul_pow (y + 1) (by omega)
  refine ⟨t, s, z, ?_⟩
  have h1 : 2 * y + 1 = z * 2 ^ (s + 2) + (2 ^ (s + 1) - 1) := by
    have h2 : 2 * (y + 1) = (2 * z + 1) * 2 ^ (s + 1) := by
      rw [hz, pow_succ]; ring
    have h5 : z * 2 ^ (s + 2) = 2 * (z * 2 ^ (s + 1)) := by rw [pow_succ]; ring
    have h6 : (2 * z + 1) * 2 ^ (s + 1) = 2 * (z * 2 ^ (s + 1)) + 2 ^ (s + 1) := by ring
    have h4 : 1 ≤ (2 : Nat) ^ (s + 1) := Nat.one_le_two_pow
    omega
  calc c = (2 * y + 1) * 2 ^ t := hy
    _ = (z * 2 ^ (s + 2) + (2 ^ (s + 1) - 1)) * 2 ^ t := by rw [h1]
    _ = z * (2 ^ (s + 2) * 2 ^ t) + (2 ^ (s + 1) - 1) * 2 ^ t := by ring
    _ = z * 2 ^ (t + s + 2) + (2 ^ (s + 1) - 1) * 2 ^ t := by
        rw [← pow_add]
        ring_nf

theorem two_pow_mul_two_pow (m n : Nat) : (2 : Nat) ^ m * 2 ^ n = 2 ^ (m + n) :=
  (pow_add 2 m n).symm

theorem run_lt_pow (s t : Nat) : (2 ^ (s + 1) - 1) * 2 ^ t < 2 ^ (t + s + 2) := by
  have e1 : (2 : Nat) ^ (s + 1) * 2 ^ t = 2 ^ (t + s + 1) := by
    rw [two_pow_mul_two_pow]; congr 1; omega
  have e2 : (2 : Nat) ^ (t + s + 2) = 2 * 2 ^ (t + s + 1) := by rw [pow_succ]; ring
  have e3 : (2 ^ (s + 1) - 1) * 2 ^ t = 2 ^ (s + 1) * 2 ^ t - 1 * 2 ^ t := by
    rw [Nat.sub_mul]
  have e4 : 1 ≤ (2 : Nat) ^ t := Nat.one_le_two_pow
  have e5 : 1 ≤ (2 : Nat) ^ (t + s + 1) := Nat.one_le_two_pow
  omega

theorem gosper_pred {c : Nat} {a t s : Nat}
    (hc : c = a * 2 ^ (t + s + 2) + (2 ^ (s + 1) - 1) * 2 ^ t) :
    c - 1 = a * 2 ^ (t + s + 2) + ((2 ^ s - 1) * 2 ^ (t + 1) + (2 ^ t - 1)) := by
  have e1 : (2 : Nat) ^ (s + 1) * 2 ^ t = 2 ^ (t + s + 1) := by
    rw [two_pow_mul_two_pow]; congr 1; omega
  have e2 : (2 : Nat) ^ s * 2 ^ (t + 1) = 2 ^ (t + s + 1) := by
    rw [two_pow_mul_two_pow]; congr 1; omega
  have e3 : (2 : Nat) ^ (t + 1) = 2 * 2 ^ t := by rw [pow_succ]; ring
  have e4 : 1 ≤ (2 : Nat) ^ t := Nat.one_le_two_pow
  have e5 : (2 ^ (s + 1) - 1) * 2 ^ t = 2 ^ (s + 1) * 2 ^ t - 1 * 2 ^ t := by rw [Nat.sub_mul]
  have e6 : (2 ^ s - 1) * 2 ^ (t + 1) = 2 ^ s * 2 ^ (t + 1) - 1 * 2 ^ (t + 1) := by
    rw [Nat.sub_mul]
  have e7 : 2 ^ (t + 1) ≤ (2 : Nat) ^ (t + s + 1) := Nat.pow_le_pow_right (by omega) (by omega)
  omega

theorem gosper_land {c : Nat} {a t s : Nat}
    (hc : c = a * 2 ^ (t + s + 2) + (2 ^ (s + 1) - 1) * 2 ^ t) :
    c &&& (c - 1) = a * 2 ^ (t + s + 2) + (2 ^ s - 1) * 2 ^ (t + 1) := by
  have hB : (2 ^ (s + 1) - 1) * 2 ^ t < 2 ^ (t + s + 2) := run_lt_pow s t
  have hB1 : (2 ^ s - 1) * 2 ^ (t + 1) + (2 ^ t - 1) < 2 ^ (t + s + 2) := by
    have h1 := run_lt_pow s t
    have e1 : (2 : Nat) ^ s * 2 ^ (t + 1) = 2 ^ (t + s + 1) := by
      rw [two_pow_mul_two_pow]; congr 1; omega
    have e2 : (2 ^ s - 1) * 2 ^ (t + 1) = 2 ^ s * 2 ^ (t + 1) - 1 * 2 ^ (t + 1) := by
      rw [Nat.sub_mul]
    have e3 : (2 : Nat) ^ (t + 1) = 2 * 2 ^ t := by rw [pow_succ]; ring
    have e4 : 1 ≤ (2 : Nat) ^ t := Nat.one_le_two_pow
    have e5 : (2 : Nat) ^ (t + s + 2) = 2 * 2 ^ (t + s + 1) := by rw [pow_succ]; ring
    have e6 : 1 ≤ (2 : Nat) ^ (t + s + 1) := Nat.one_le_two_pow
    have e8 : (2 : Nat) ^ t ≤ 2 ^ (t + s + 1) := Nat.pow_le_pow_right (by omega) (by omega)
    omega
  have hB2 : (2 ^ s - 1) * 2 ^ (t + 1) < 2 ^ (t + s + 2) := by omega
  have hlow : (2 : Nat) ^ t - 1 < 2 ^ (t + 1) := by
    have e3 : (2 : Nat) ^ (t + 1) = 2 * 2 ^ t := by rw [pow_succ]; ring
    have e4 : 1 ≤ (2 : Nat) ^ t := Nat.one_le_two_pow
    omega
  apply Nat.eq_of_testBit_eq
  intro j
  rw [Nat.testBit_land, gosper_pred hc, hc, testBit_mul_pow_add _ _ _ _ hB,
    testBit_mul_pow_add _ _ _ _ hB1, testBit_mul_pow_add _ _ _ _ hB2,
    testBit_run (s + 1) t j, testBit_mul_pow_add _ _ _ _ hlow,
    testBit_run s (t + 1) j, Nat.testBit_two_pow_sub_one]
  by_cases hjW : j < t + s + 2
  · rw [if_pos hjW, if_pos hjW, if_pos hjW]
    by_cases hjt : j < t + 1
    · rw [if_pos hjt, ← Bool.decide_and, decide_eq_decide]
      omega
    · rw [if_neg hjt, Nat.testBit_two_pow_sub_one, ← Bool.decide_and, decide_eq_decide]
      omega
  · rw [if_neg hjW, if_neg hjW, if_neg hjW, Bool.and_self]

theorem gosper_r {c : Nat} {a t s : Nat}
    (hc : c = a * 2 ^ (t + s + 2) + (2 ^ (s + 1) - 1) * 2 ^ t) :
    c ^^^ (c &&& (c - 1)) = 2 ^ t := by
  have hB : (2 ^ (s + 1) - 1) * 2 ^ t < 2 ^ (t + s + 2) := run_lt_pow s t
  have hB2 : (2 ^ s - 1) * 2 ^ (t + 1) < 2 ^ (t + s + 2) := by
    have h1 := run_lt_pow s t
    have e1 : (2 : Nat) ^ s * 2 ^ (t + 1) = 2 ^ (t + s + 1) := by
      rw [two_pow_mul_two_pow]; congr 1; omega
    have e2 : (2 ^ s - 1) * 2 ^ (t + 1) = 2 ^ s * 2 ^ (t + 1) - 1 * 2 ^ (t + 1) := by
      rw [Nat.sub_mul]
    have e3 : (2 : Nat) ^ (t + s + 2) = 2 * 2 ^ (t + s + 1) := by rw [pow_succ]; ring
    have e4 : 1 ≤ (2 : Nat) ^ (t + s + 1) := Nat.one_le_two_pow
    omega
  apply Nat.eq_of_testBit_eq
  intro j
  rw [Nat.testBit_xor, gosper_land hc, hc, testBit_mul_pow_add _ _ _ _ hB,
    testBit_mul_pow_add _ _ _ _ hB2, testBit_run (s + 1) t j, testBit_run s (t + 1) j,
    Nat.testBit_two_pow]
  by_cases hjW : j < t + s + 2
  · rw [if_pos hjW, if_pos hjW]
    rcases Nat.lt_trichotomy j t with hj | hj | hj
    · have d1 : decide (t ≤ j ∧ j < t + (s + 1)) = false := by
        rw [decide_eq_false_iff_not]; omega
      have d2 : decide (t + 1 ≤ j ∧ j < t + 1 + s) = false := by
        rw [decide_eq_false_iff_not]; omega
      have d3 : decide (t = j) = false := by rw [decide_eq_false_iff_not]; omega
      rw [d1, d2, d3]
      rfl
    · subst hj
      have d1 : decide (j ≤ j ∧ j < j + (s + 1)) = true := by
        rw [decide_eq_true_eq]; omega
      have d2 : decide (j + 1 ≤ j ∧ j < j + 1 + s) = false := by
        rw [decide_eq_false_iff_not]; omega
      have d3 : decide (j = j) = true := by rw [decide_eq_true_eq]
      rw [d1, d2, d3]
      rfl
    · have d3 : decide (t = j) = false := by rw [decide_eq_false_iff_not]; omega
      rw [d3]
      by_cases hjr : j < t + s + 1
      · have d1 : decide (t ≤ j ∧ j < t + (s + 1)) = true := by
          rw [decide_eq_true_eq]; omega
        have d2 : decide (t + 1 ≤ j ∧ j < t + 1 + s) = true := by
          rw [decide_eq_true_eq]; omega
        rw [d1, d2]
        rfl
      · have d1 : decide (t ≤ j ∧ j < t + (s + 1)) = false := by
          rw [decide_eq_false_iff_not]; omega
        have d2 : decide (t + 1 ≤ j ∧ j < t + 1 + s) = false := by
          rw [decide_eq_false_iff_not]; omega
        rw [d1, d2]
        rfl
  · rw [if_neg hjW, if_neg hjW]
    have d3 : decide (t = j) = false := by rw [decide_eq_false_iff_not]; omega
    rw [d3, Bool.xor_self]

theorem gosper_temp {c : Nat} {a t s : Nat}
    (hc : c = a * 2 ^ (t + s + 2) + (2 ^ (s + 1) - 1) * 2 ^ t) :
    c + 2 ^ t = a * 2 ^ (t + s + 2) + 2 ^ (t + s + 1) := by
  have e1 : (2 : Nat) ^ (s + 1) * 2 ^ t = 2 ^ (t + s + 1) := by
    rw [two_pow_mul_two_pow]; congr 1; omega
  have e4 : 1 ≤ (2 : Nat) ^ t := Nat.one_le_two_pow
  have e5 : (2 ^ (s + 1) - 1) * 2 ^ t = 2 ^ (s + 1) * 2 ^ t - 1 * 2 ^ t := by rw [Nat.sub_mul]
  have e6 : (2 : Nat) ^ t ≤ 2 ^ (t + s + 1) := Nat.pow_le_pow_right (by omega) (by omega)
  omega

theorem gosper_xor2 {c : Nat} {a t s : Nat}
    (hc : c = a * 2 ^ (t + s + 2) + (2 ^ (s + 1) - 1) * 2 ^ t) :
    c ^^^ (a * 2 ^ (t + s + 2) + 2 ^ (t + s + 1)) = (2 ^ (s + 2) - 1) * 2 ^ t := by
  have hB : (2 ^ (s + 1) - 1) * 2 ^ t < 2 ^ (t + s + 2) := run_lt_pow s t
  have hT : (2 : Nat) ^ (t + s + 1) < 2 ^ (t + s + 2) :=
    Nat.pow_lt_pow_right (by omega) (by omega)
  apply Nat.eq_of_testBit_eq
  intro j
  rw [Nat.testBit_xor, hc, testBit_mul_pow_add _ _ _ _ hB, testBit_mul_pow_add _ _ _ _ hT,
    testBit_run (s + 1) t j, testBit_run (s + 2) t j, Nat.testBit_two_pow]
  by_cases hjW : j < t + s + 2
  · rw [if_pos hjW, if_pos hjW]
    by_cases hj1 : t ≤ j ∧ j < t + (s + 1)
    · have d1 : decide (t ≤ j ∧ j < t + (s + 1)) = true := by rw [decide_eq_true_eq]; exact hj1
      have d2 : decide (t + s + 1 = j) = false := by rw [decide_eq_false_iff_not]; omega
      have d3 : decide (t ≤ j ∧ j < t + (s + 2)) = true := by rw [decide_eq_true_eq]; omega
      rw [d1, d2, d3]
      rfl
    · have d1 : decide (t ≤ j ∧ j < t + (s + 1)) = false := by
        rw [decide_eq_false_iff_not]; exact hj1
      rw [d1]
      by_cases hj2 : t + s + 1 = j
      · have d2 : decide (t + s + 1 = j) = true := by rw [decide_eq_true_eq]; exact hj2
        have d3 : decide (t ≤ j ∧ j < t + (s + 2)) = true := by rw [decide_eq_true_eq]; omega
        rw [d2, d3]
        rfl
      · have d2 : decide (t + s + 1 = j) = false := by rw [decide_eq_false_iff_not]; exact hj2
        have d3 : decide (t ≤ j ∧ j < t + (s + 2)) = false := by
          rw [decide_eq_false_iff_not]; omega
        rw [d2, d3]
        rfl
  · rw [if_neg hjW, if_neg hjW, Bool.xor_self]
    symm
    rw [decide_eq_false_iff_not]
    omega

theorem lor_mul_pow (mval w b : Nat) (hb : b < 2 ^ w) :
    (mval * 2 ^ w) ||| b = mval * 2 ^ w + b := by
  apply Nat.eq_of_testBit_eq
  intro j
  rw [Nat.testBit_lor, testBit_mul_pow_add mval w b j hb]
  have h0 : (mval * 2 ^ w).testBit j = if j < w then false else mval.testBit (j - w) := by
    have h := testBit_mul_pow_add mval w 0 j (Nat.pos_pow_of_pos w (by omega))
    rw [Nat.add_zero] at h
    rw [h]
    by_cases hj : j < w <;> simp [hj]
  rw [h0]
  by_cases hj : j < w
  · rw [if_pos hj, if_pos hj, Bool.false_or]
  · rw [if_neg hj, if_neg hj]
    have hbj : b.testBit j = false :=
      Nat.testBit_lt_two_pow (lt_of_lt_of_le hb (Nat.pow_le_pow_right (by omega) (by omega)))
    rw [hbj, Bool.or_false]

theorem gosper_next_val {c : Nat} {a t s : Nat}
    (hc : c = a * 2 ^ (t + s + 2) + (2 ^ (s + 1) - 1) * 2 ^ t) :
    gosperNext c = a * 2 ^ (t + s + 2) + 2 ^ (t + s + 1) + (2 ^ s - 1) := by
  have hstep : gosperNext c = (c + 2 ^ t) ||| (((c ^^^ (c + 2 ^ t)) / 2 ^ t) >>> 2) := by
    unfold gosperNext
    rw [gosper_r hc]
  rw [hstep, gosper_temp hc, gosper_xor2 hc]
  have hdiv : (2 ^ (s + 2) - 1) * 2 ^ t / 2 ^ t = 2 ^ (s + 2) - 1 :=
    Nat.mul_div_cancel _ (Nat.pos_pow_of_pos t (by omega))
  rw [hdiv, Nat.shiftRight_eq_div_pow]
  have hpow : (2 : Nat) ^ (s + 2) = 4 * 2 ^ s := by
    rw [pow_add]; ring
  have hsplit : 2 ^ (s + 2) - 1 = (2 ^ s - 1) * 2 ^ 2 + 3 := by
    have : 1 ≤ (2 : Nat) ^ s := Nat.one_le_two_pow
    have h4 : (2 : Nat) ^ 2 = 4 := rfl
    rw [h4]
    omega
  rw [hsplit, mul_single_add_div _ _ _ (by omega) (by omega)]
  have hfact : a * 2 ^ (t + s + 2) + 2 ^ (t + s + 1) =
      (a * 2 ^ (t + 1) + 2 ^ t) * 2 ^ (s + 1) := by
    have e1 : (2 : Nat) ^ (t + 1) * 2 ^ (s + 1) = 2 ^ (t + s + 2) := by
      rw [two_pow_mul_two_pow]; congr 1; omega
    have e2 : (2 : Nat) ^ t * 2 ^ (s + 1) = 2 ^ (t + s + 1) := by
      rw [two_pow_mul_two_pow]
      exact congrArg (fun x => (2 : Nat) ^ x) (by omega)
    calc a * 2 ^ (t + s + 2) + 2 ^ (t + s + 1)
        = a * (2 ^ (t + 1) * 2 ^ (s + 1)) + 2 ^ t * 2 ^ (s + 1) := by rw [e1, e2]
      _ = (a * 2 ^ (t + 1) + 2 ^ t) * 2 ^ (s + 1) := by ring
  have hblt : 2 ^ s - 1 < 2 ^ (s + 1) := by
    have h1 : (2 : Nat) ^ s < 2 ^ (s + 1) := Nat.pow_lt_pow_right (by omega) (by omega)
    have h2 : 1 ≤ (2 : Nat) ^ s := Nat.one_le_two_pow
    omega
  rw [hfact, lor_mul_pow _ _ _ hblt, ← hfact]

theorem gosper_pc {c : Nat} {a t s : Nat}
    (hc : c = a * 2 ^ (t + s + 2) + (2 ^ (s + 1) - 1) * 2 ^ t) :
    popcount c = popcount a + (s + 1) := by
  rw [hc, popcount_mul_pow_add _ _ _ (run_lt_pow s t)]
  congr 1
  have h := popcount_mul_pow_add t (2 ^ (s + 1) - 1) 0 (Nat.pos_pow_of_pos t (by omega))
  rw [Nat.add_zero] at h
  rw [h, popcount_zero, popcount_pred_pow]

theorem gosper_pc_next {c : Nat} {a t s : Nat}
    (hc : c = a * 2 ^ (t + s + 2) + (2 ^ (s + 1) - 1) * 2 ^ t) :
    popcount (gosperNext c) = popcount a + (s + 1) := by
  rw [gosper_next_val hc]
  have hsmall : (2 : Nat) ^ s - 1 < 2 ^ (t + s + 1) := by
    have h1 : (2 : Nat) ^ s ≤ 2 ^ (t + s + 1) := Nat.pow_le_pow_right (by omega) (by omega)
    have h2 : 1 ≤ (2 : Nat) ^ s := Nat.one_le_two_pow
    omega
  have hinner : (2 : Nat) ^ (t + s + 1) + (2 ^ s - 1) < 2 ^ (t + s + 2) := by
    have h1 : (2 : Nat) ^ (t + s + 2) = 2 * 2 ^ (t + s + 1) := by rw [pow_succ]; ring
    omega
  rw [Nat.add_assoc, popcount_mul_pow_add _ _ _ hinner]
  congr 1
  have h1 : (2 : Nat) ^ (t + s + 1) + (2 ^ s - 1) = 1 * 2 ^ (t + s + 1) + (2 ^ s - 1) := by
    ring
  rw [h1, popcount_mul_pow_add _ _ _ hsmall, popcount_one, popcount_pred_pow]
  omega

theorem gosper_lt {c : Nat} {a t s : Nat}
    (hc : c = a * 2 ^ (t + s + 2) + (2 ^ (s + 1) - 1) * 2 ^ t) :
    c < gosperNext c := by
  rw [gosper_next_val hc, hc]
  have e1 : (2 : Nat) ^ (s + 1) * 2 ^ t = 2 ^ (t + s + 1) := by
    rw [two_pow_mul_two_pow]; congr 1; omega
  have e4 : 1 ≤ (2 : Nat) ^ t := Nat.one_le_two_pow
  have e5 : (2 ^ (s + 1) - 1) * 2 ^ t = 2 ^ (s + 1) * 2 ^ t - 1 * 2 ^ t := by rw [Nat.sub_mul]
  have e6 : (2 : Nat) ^ t ≤ 2 ^ (t + s + 1) := Nat.pow_le_pow_right (by omega) (by omega)
  omega

theorem gosper_temp_le {c : Nat} {a t s : Nat}
    (hc : c = a * 2 ^ (t + s + 2) + (2 ^ (s + 1) - 1) * 2 ^ t) :
    c + (c ^^^ (c &&& (c - 1))) ≤ gosperNext c := by
  rw [gosper_r hc, gosper_temp hc, gosper_next_val hc]
  omega

theorem gosper_min {c : Nat} {a t s : Nat}
    (hc : c = a * 2 ^ (t + s + 2) + (2 ^ (s + 1) - 1) * 2 ^ t) :
    ∀ m, c < m → m < gosperNext c → popcount m ≠ popcount c := by
  intro m h1 h2 hpc
  rw [gosper_pc hc] at hpc
  rw [gosper_next_val hc] at h2
  have e1 : (2 : Nat) ^ (s + 1) * 2 ^ t = 2 ^ (t + s + 1) := by
    rw [two_pow_mul_two_pow]; congr 1; omega
  have e4 : 1 ≤ (2 : Nat) ^ t := Nat.one_le_two_pow
  have e5 : (2 ^ (s + 1) - 1) * 2 ^ t = 2 ^ (s + 1) * 2 ^ t - 1 * 2 ^ t := by rw [Nat.sub_mul]
  have e6 : (2 : Nat) ^ t ≤ 2 ^ (t + s + 1) := Nat.pow_le_pow_right (by omega) (by omega)
  by_cases hm : m < a * 2 ^ (t + s + 2) + 2 ^ (t + s + 1)
  · -- c < m < temp: the low part exceeds the maximal (s+1)-popcount value
    have hmeq : m = a * 2 ^ (t + s + 2) + (m - a * 2 ^ (t + s + 2)) := by
      rw [hc] at h1
      omega
    have hub : m - a * 2 ^ (t + s + 2) < 2 ^ (t + s + 1) := by omega
    have hlb : (2 ^ (s + 1) - 1) * 2 ^ t < m - a * 2 ^ (t + s + 2) := by
      rw [hc] at h1
      omega
    have hpcm : popcount m = popcount a + popcount (m - a * 2 ^ (t + s + 2)) := by
      conv_lhs => rw [hmeq]
      exact popcount_mul_pow_add _ _ _ (by
        have : (2 : Nat) ^ (t + s + 1) < 2 ^ (t + s + 2) :=
          Nat.pow_lt_pow_right (by omega) (by omega)
        omega)
    have hpc' : popcount (m - a * 2 ^ (t + s + 2)) = s + 1 := by omega
    have hmax := le_max_of_popcount hub
    rw [hpc'] at hmax
    have hexp : t + s + 1 - (s + 1) = t := by omega
    rw [hexp] at hmax
    omega
  · -- temp ≤ m < next: the low part is below the minimal s-popcount value
    have hub : m - (a * 2 ^ (t + s + 2) + 2 ^ (t + s + 1)) < 2 ^ s - 1 := by omega
    have hmeq : m = a * 2 ^ (t + s + 2) +
        (2 ^ (t + s + 1) + (m - (a * 2 ^ (t + s + 2) + 2 ^ (t + s + 1)))) := by omega
    have hsmall : (2 : Nat) ^ s ≤ 2 ^ (t + s + 1) := Nat.pow_le_pow_right (by omega) (by omega)
    have hs1 : 1 ≤ (2 : Nat) ^ s := Nat.one_le_two_pow
    have hpcm : popcount m = popcount a +
        (1 + popcount (m - (a * 2 ^ (t + s + 2) + 2 ^ (t + s + 1)))) := by
      conv_lhs => rw [hmeq]
      rw [popcount_mul_pow_add _ _ _ (by
        have : (2 : Nat) ^ (t + s + 2) = 2 * 2 ^ (t + s + 1) := by rw [pow_succ]; ring
        omega)]
      congr 1
      have h9 : (2 : Nat) ^ (t + s + 1) + (m - (a * 2 ^ (t + s + 2) + 2 ^ (t + s + 1))) =
          1 * 2 ^ (t + s + 1) + (m - (a * 2 ^ (t + s + 2) + 2 ^ (t + s + 1))) := by ring
      rw [h9, popcount_mul_pow_add _ _ _ (by omega), popcount_one]
    have hpc'' : popcount (m - (a * 2 ^ (t + s + 2) + 2 ^ (t + s + 1))) = s := by omega
    have hmin := two_pow_popcount_le (m - (a * 2 ^ (t + s + 2) + 2 ^ (t + s + 1)))
    rw [hpc''] at hmin
    omega

theorem bool_eq_of_iff {a b : Bool} (h : a = true ↔ b = true) : a = b := by
  cases a <;> cases b <;> simp_all

theorem popcount_le_of_lt_two_pow {m n : Nat} (hm : m < 2 ^ n) : popcount m ≤ n := by
  have := popcount_complement n m hm
  omega

theorem genCombLoop_iff (maxC k : Nat) (cb : Nat → Bool) (hk : 1 ≤ k)
    (hmaxpc : popcount maxC = k) :
    ∀ fuel c, maxC + 1 - c ≤ fuel → popcount c = k → c ≤ maxC →
      (genCombLoop maxC cb fuel c = true ↔
        ∃ m, c ≤ m ∧ m ≤ maxC ∧ popcount m = k ∧ cb m = true) := by
  intro fuel
  induction fuel with
  | zero =>
    intro c hfuel hpc hcm
    omega
  | succ fuel ih =>
    intro c hfuel hpc hcm
    have hc0 : 0 < c := by
      rcases Nat.eq_zero_or_pos c with rfl | h
      · rw [popcount_zero] at hpc; omega
      · exact h
    obtain ⟨t, s, a, hdecomp⟩ := exists_gosper_decomp c hc0
    have hunfold : genCombLoop maxC cb (fuel + 1) c =
        if c ≤ maxC then
          if cb c then true
          else
            if maxC < c + (c ^^^ (c &&& (c - 1))) then false
            else genCombLoop maxC cb fuel (gosperNext c)
        else false := rfl
    rw [hunfold, if_pos hcm]
    by_cases hcb : cb c = true
    · rw [if_pos hcb]
      simp only [true_iff]
      exact ⟨c, Nat.le_refl c, hcm, hpc, hcb⟩
    · rw [if_neg hcb]
      have hcbf : cb c = false := by
        cases h : cb c
        · rfl
        · exact absurd h hcb
      have hr := gosper_r hdecomp
      have hlt := gosper_lt hdecomp
      have hpcnext := gosper_pc_next hdecomp
      have hpcc := gosper_pc hdecomp
      have hmin := gosper_min hdecomp
      have htl := gosper_temp_le hdecomp
      by_cases htemp : maxC < c + (c ^^^ (c &&& (c - 1)))
      · rw [if_pos htemp]
        constructor
        · intro h
          exact absurd h (by simp)
        · rintro ⟨m, hm1, hm2, hm3, hm4⟩
          rcases Nat.eq_or_lt_of_le hm1 with rfl | hmlt
          · rw [hcbf] at hm4
            exact absurd hm4 (by simp)
          · have hmn : m < gosperNext c := by omega
            have hne := hmin m hmlt hmn
            rw [hm3, hpc] at hne
            exact absurd rfl hne
      · rw [if_neg htemp]
        push_neg at htemp
        have hnextle : gosperNext c ≤ maxC := by
          by_contra hgt
          push_neg at hgt
          have hrpos : 1 ≤ c ^^^ (c &&& (c - 1)) := by
            rw [hr]
            exact Nat.one_le_two_pow
          have h1 : c < maxC := by omega
          have := hmin maxC h1 hgt
          rw [hmaxpc, hpc] at this
          exact this rfl
        have hnextpc : popcount (gosperNext c) = k := by omega
        have hih := ih (gosperNext c) (by omega) hnextpc hnextle
        rw [hih]
        constructor
        · rintro ⟨m, h1, h2, h3, h4⟩
          exact ⟨m, by omega, h2, h3, h4⟩
        · rintro ⟨m, h1, h2, h3, h4⟩
          refine ⟨m, ?_, h2, h3, h4⟩
          by_contra hno
          push_neg at hno
          rcases Nat.eq_or_lt_of_le h1 with rfl | hlt2
          · rw [hcbf] at h4
            exact absurd h4 (by simp)
          · have := hmin m hlt2 hno
            rw [h3, hpc] at this
            exact this rfl

/-- `generateCombinations` reports "found" exactly when some value below `2^n`
with `k` set bits satisfies the callback. -/
theorem generateCombinations_iff (n k : Nat) (cb : Nat → Bool) :
    generateCombinations n k cb = true ↔
      ∃ m, m < 2 ^ n ∧ popcount m = k ∧ cb m = true := by
  unfold generateCombinations
  by_cases hk0 : k = 0
  · subst hk0
    rw [if_pos rfl]
    constructor
    · intro h
      exact ⟨0, Nat.pos_pow_of_pos n (by omega), popcount_zero, h⟩
    · rintro ⟨m, _, h2, h3⟩
      rw [popcount_eq_zero.mp h2] at h3
      exact h3
  · rw [if_neg hk0]
    by_cases hkn : k > n
    · rw [if_pos hkn]
      constructor
      · intro h
        exact absurd h (by simp)
      · rintro ⟨m, h1, h2, _⟩
        have := popcount_le_of_lt_two_pow h1
        omega
    · rw [if_neg hkn]
      have hnk : k ≤ n := by omega
      have hc0eq : (1 <<< k) - 1 = 2 ^ k - 1 := by rw [one_shiftLeft]
      have hmaxeq : ((1 <<< k) - 1) <<< (n - k) = (2 ^ k - 1) * 2 ^ (n - k) := by
        rw [one_shiftLeft, Nat.shiftLeft_eq]
      rw [hmaxeq, hc0eq]
      have hpow : (2 : Nat) ^ k * 2 ^ (n - k) = 2 ^ n := by
        rw [two_pow_mul_two_pow]
        exact congrArg (fun x => (2 : Nat) ^ x) (by omega)
      have h1k : 1 ≤ (2 : Nat) ^ k := Nat.one_le_two_pow
      have h1nk : 1 ≤ (2 : Nat) ^ (n - k) := Nat.one_le_two_pow
      have hmaxpc : popcount ((2 ^ k - 1) * 2 ^ (n - k)) = k := by
        have h := popcount_mul_pow_add (n - k) (2 ^ k - 1) 0
          (Nat.pos_pow_of_pos (n - k) (by omega))
        rw [Nat.add_zero] at h
        rw [h, popcount_zero, popcount_pred_pow]
        omega
      have hc0pc : popcount (2 ^ k - 1) = k := popcount_pred_pow k
      have hc0le : 2 ^ k - 1 ≤ (2 ^ k - 1) * 2 ^ (n - k) :=
        Nat.le_mul_of_pos_right _ (by omega)
      have hmaxlt : (2 ^ k - 1) * 2 ^ (n - k) < 2 ^ n := by
        have h2 : (2 ^ k - 1) * 2 ^ (n - k) < 2 ^ k * 2 ^ (n - k) :=
          Nat.mul_lt_mul_of_lt_of_le (by omega) (Nat.le_refl _) (by omega)
        omega
      rw [genCombLoop_iff _ k cb (by omega) hmaxpc _ _ (by omega) hc0pc hc0le]
      constructor
      · rintro ⟨m, h1, h2, h3, h4⟩
        exact ⟨m, by omega, h3, h4⟩
      · rintro ⟨m, h1, h2, h3⟩
        refine ⟨m, ?_, ?_, h2, h3⟩
        · have := two_pow_popcount_le m
          rw [h2] at this
          omega
        · have := le_max_of_popcount h1
          rw [h2] at this
          have hval : (2 : Nat) ^ n - 2 ^ (n - k) = (2 ^ k - 1) * 2 ^ (n - k) := by
            rw [Nat.sub_mul, hpow]
            omega
          omega

theorem mem_combinationsSpec {n k m : Nat} :
    m ∈ combinationsSpec n k ↔ m < 2 ^ n ∧ popcount m = k := by
  unfold combinationsSpec
  rw [List.mem_filter, List.mem_range]
  simp

theorem card_filter_popcount :
    ∀ n k, ((Finset.range (2 ^ n)).filter fun c => popcount c = k).card = n.choose k := by
  intro n
  induction n with
  | zero =>
    intro k
    have h1 : (2 : Nat) ^ 0 = 1 := rfl
    rw [h1, Finset.range_one, Finset.filter_singleton]
    cases k with
    | zero => rw [if_pos popcount_zero]; rfl
    | succ k =>
      rw [if_neg (by rw [popcount_zero]; omega)]
      rw [Nat.choose_eq_zero_of_lt (by omega)]
      rfl
  | succ n ih =>
    intro k
    have hsplit : (2 : Nat) ^ (n + 1) = 2 ^ n + 2 ^ n := by rw [pow_succ]; omega
    rw [hsplit, Finset.range_add_eq_union, Finset.filter_union]
    have hdisj : Disjoint
        ((Finset.range (2 ^ n)).filter fun c => popcount c = k)
        (((Finset.range (2 ^ n)).map (addLeftEmbedding (2 ^ n))).filter
          fun c => popcount c = k) := by
      rw [Finset.disjoint_left]
      intro x hx hx2
      rw [Finset.mem_filter, Finset.mem_range] at hx
      rw [Finset.mem_filter, Finset.mem_map] at hx2
      obtain ⟨⟨y, hy, hxy⟩, _⟩ := hx2
      rw [addLeftEmbedding_apply] at hxy
      omega
    rw [Finset.card_union_of_disjoint hdisj, ih k, Finset.filter_map, Finset.card_map]
    have hcongr : (Finset.range (2 ^ n)).filter
          ((fun c => popcount c = k) ∘ addLeftEmbedding (2 ^ n)) =
        (Finset.range (2 ^ n)).filter fun c => popcount c + 1 = k := by
      apply Finset.filter_congr
      intro x hx
      rw [Finset.mem_range] at hx
      simp only [Function.comp_apply, addLeftEmbedding_apply]
      have hpc : popcount (2 ^ n + x) = 1 + popcount x := by
        have h9 : (2 : Nat) ^ n + x = 1 * 2 ^ n + x := by ring
        rw [h9, popcount_mul_pow_add _ _ _ hx, popcount_one]
      rw [hpc]
      constructor <;> intro h <;> omega
    rw [hcongr]
    cases k with
    | zero =>
      have hempty : ((Finset.range (2 ^ n)).filter fun c => popcount c + 1 = 0) = ∅ := by
        apply Finset.filter_false_of_mem
        intro x _
        omega
      rw [hempty]
      simp [Nat.choose_zero_right]
    | succ k =>
      have heq : ((Finset.range (2 ^ n)).filter fun c => popcount c + 1 = k + 1) =
          (Finset.range (2 ^ n)).filter fun c => popcount c = k := by
        apply Finset.filter_congr
        intro x _
        constructor <;> intro h <;> omega
      rw [heq, ih k, Nat.choose_succ_succ']
      omega

theorem length_combinationsSpec (n k : Nat) :
    (combinationsSpec n k).length = n.choose k := by
  have hbridge : (combinationsSpec n k).length =
      ((Finset.range (2 ^ n)).filter fun c => popcount c = k).card := rfl
  rw [hbridge, card_filter_popcount]

/-- C4: `generateCombinations n k` invokes the callback on exactly the
combinations listed by `combinationsSpec n k` — the `C(n,k)` distinct integers
with exactly `k` bits set among the low `n` bits, in strictly increasing
order — reporting "found" exactly when the callback accepts one of them
(early termination); `k = 0` yields exactly `{0}` and `k > n` yields
nothing. -/
theorem claim_C4_generateCombinations :
    (∀ (n k : Nat) (cb : Nat → Bool),
      generateCombinations n k cb = (combinationsSpec n k).any cb) ∧
    (∀ n k m, m ∈ combinationsSpec n k ↔ m < 2 ^ n ∧ popcount m = k) ∧
    (∀ n k, (combinationsSpec n k).Sorted (· < ·)) ∧
    (∀ n k, (combinationsSpec n k).length = n.choose k) ∧
    (∀ n, combinationsSpec n 0 = [0]) ∧
    (∀ n k, n < k → combinationsSpec n k = []) := by
  refine ⟨?_, ?_, ?_, ?_, ?_, ?_⟩
  · intro n k cb
    apply bool_eq_of_iff
    rw [generateCombinations_iff, List.any_eq_true]
    constructor
    · rintro ⟨m, h1, h2, h3⟩
      exact ⟨m, mem_combinationsSpec.mpr ⟨h1, h2⟩, h3⟩
    · rintro ⟨m, h1, h2⟩
      obtain ⟨h3, h4⟩ := mem_combinationsSpec.mp h1
      exact ⟨m, h3, h4, h2⟩
  · intro n k m
    exact mem_combinationsSpec
  · intro n k
    exact (List.sorted_lt_range (2 ^ n)).sublist (List.filter_sublist _)
  · intro n k
    exact length_combinationsSpec n k
  · intro n
    have hlen : (combinationsSpec n 0).length = 1 := by
      rw [length_combinationsSpec, Nat.choose_zero_right]
    match hval : combinationsSpec n 0 with
    | [] => rw [hval] at hlen; simp at hlen
    | [x] =>
      have hx : x ∈ combinationsSpec n 0 := by rw [hval]; exact List.mem_singleton_self x
      have := (mem_combinationsSpec.mp hx).2
      rw [popcount_eq_zero] at this
      rw [this]
    | x :: y :: l => rw [hval] at hlen; simp at hlen
  · intro n k hnk
    rw [List.eq_nil_iff_forall_not_mem]
    intro m hm
    obtain ⟨h1, h2⟩ := mem_combinationsSpec.mp hm
    have := popcount_le_of_lt_two_pow h1
    omega

theorem claim_C4_generateCombinations_witness :
    (3 ∈ combinationsSpec 3 2 ↔ 3 < 2 ^ 3 ∧ popcount 3 = 2) ∧
    (combinationsSpec 3 2).length = Nat.choose 3 2 ∧
    generateCombinations 3 2 (fun m => m == 5) = (combinationsSpec 3 2).any (fun m => m == 5) :=
  ⟨claim_C4_generateCombinations.2.1 3 2 3,
   claim_C4_generateCombinations.2.2.2.1 3 2,
   claim_C4_generateCombinations.1 3 2 (fun m => m == 5)⟩

theorem hasNonRecoverablePattern_iff (N K total nl : Nat) (R : List Int) :
    hasNonRecoverablePattern N K total nl R = true ↔ ExistsNonRecovWithCount total R nl := by
  unfold hasNonRecoverablePattern ExistsNonRecovWithCount NonRecoverableLoss
  rw [generateCombinations_iff]
  constructor
  · rintro ⟨m, h1, h2, h3⟩
    refine ⟨m, h1, h2, ?_⟩
    rw [one_shiftLeft] at h3
    simpa using h3
  · rintro ⟨m, h1, h2, h3⟩
    refine ⟨m, h1, h2, ?_⟩
    rw [one_shiftLeft]
    simpa using h3

theorem findMinLostGo_spec (N K total : Nat) (R : List Int) :
    ∀ fuel start, total + 1 - start ≤ fuel →
      ((∀ nl, start ≤ nl → nl ≤ total →
          hasNonRecoverablePattern N K total nl R = false) →
        findMinLostGo N K total R fuel start = -1) ∧
      (∀ nl, start ≤ nl → nl ≤ total →
        hasNonRecoverablePattern N K total nl R = true →
        (∀ j, start ≤ j → j < nl → hasNonRecoverablePattern N K total j R = false) →
        findMinLostGo N K total R fuel start = (nl : Int)) := by
  intro fuel
  induction fuel with
  | zero =>
    intro start hfuel
    constructor
    · intro _
      rfl
    · intro nl h1 h2 _ _
      omega
  | succ fuel ih =>
    intro start hfuel
    have hunfold : findMinLostGo N K total R (fuel + 1) start =
        if start ≤ total then
          if hasNonRecoverablePattern N K total start R then (start : Int)
          else findMinLostGo N K total R fuel (start + 1)
        else -1 := rfl
    by_cases hst : start ≤ total
    · rw [hunfold, if_pos hst]
      constructor
      · intro hall
        rw [hall start (Nat.le_refl _) hst]
        simp only [Bool.false_eq_true, if_false]
        exact (ih (start + 1) (by omega)).1 fun nl h1 h2 => hall nl (by omega) h2
      · intro nl h1 h2 h3 h4
        rcases Nat.eq_or_lt_of_le h1 with rfl | hlt
        · rw [h3]
          simp
        · rw [h4 start (Nat.le_refl _) hlt]
          simp only [Bool.false_eq_true, if_false]
          exact (ih (start + 1) (by omega)).2 nl (by omega) h2 h3
            fun j hj1 hj2 => h4 j (by omega) hj2
    · rw [hunfold, if_neg hst]
      constructor
      · intro _
        rfl
      · intro nl h1 h2 _ _
        omega

theorem lor_two_pow_run (len start : Nat) :
    ((2 ^ len - 1) * 2 ^ (start + 1)) ||| 2 ^ start = (2 ^ (len + 1) - 1) * 2 ^ start := by
  have hlt : (2 : Nat) ^ start < 2 ^ (start + 1) :=
    Nat.pow_lt_pow_right (by omega) (by omega)
  rw [lor_mul_pow _ _ _ hlt]
  have e1 : (2 : Nat) ^ len * 2 ^ (start + 1) = 2 ^ (start + len + 1) := by
    rw [two_pow_mul_two_pow]
    exact congrArg (fun x => (2 : Nat) ^ x) (by omega)
  have e2 : (2 : Nat) ^ (len + 1) * 2 ^ start = 2 ^ (start + len + 1) := by
    rw [two_pow_mul_two_pow]
    exact congrArg (fun x => (2 : Nat) ^ x) (by omega)
  have e3 : (2 ^ len - 1) * 2 ^ (start + 1) = 2 ^ len * 2 ^ (start + 1) - 1 * 2 ^ (start + 1) := by
    rw [Nat.sub_mul]
  have e4 : (2 ^ (len + 1) - 1) * 2 ^ start = 2 ^ (len + 1) * 2 ^ start - 1 * 2 ^ start := by
    rw [Nat.sub_mul]
  have e5 : (2 : Nat) ^ (start + 1) = 2 * 2 ^ start := by rw [pow_succ]; ring
  have e6 : 1 ≤ (2 : Nat) ^ start := Nat.one_le_two_pow
  have e7 : (2 : Nat) ^ (start + 1) ≤ 2 ^ (start + len + 1) :=
    Nat.pow_le_pow_right (by omega) (by omega)
  omega

theorem consecutiveLossPattern_eq (startPos len : Nat) :
    consecutiveLossPattern startPos len = (2 ^ len - 1) * 2 ^ startPos := by
  suffices h : ∀ len startPos acc, (List.range' startPos len).foldl
      (fun p i => p ||| (1 <<< i)) acc = acc ||| ((2 ^ len - 1) * 2 ^ startPos) by
    unfold consecutiveLossPattern
    rw [h len startPos 0]
    rw [Nat.zero_or]
  intro len
  induction len with
  | zero =>
    intro startPos acc
    simp
  | succ len ih =>
    intro startPos acc
    rw [List.range'_succ, List.foldl_cons, ih (startPos + 1), one_shiftLeft,
      Nat.lor_assoc]
    congr 1
    rw [Nat.lor_comm, lor_two_pow_run]

theorem hasNonRecoverableConsecutive_iff (total len : Nat) (R : List Int) (hlen : 1 ≤ len)
    (hle : len ≤ total) :
    hasNonRecoverableConsecutive total len R = true ↔ ExistsNonRecovRun total R len := by
  unfold hasNonRecoverableConsecutive ExistsNonRecovRun NonRecoverableLoss
  rw [List.any_eq_true]
  constructor
  · rintro ⟨start, hmem, hb⟩
    rw [List.mem_range] at hmem
    refine ⟨start, by omega, ?_⟩
    rw [consecutiveLossPattern_eq, one_shiftLeft] at hb
    simpa using hb
  · rintro ⟨start, hrange, hb⟩
    refine ⟨start, ?_, ?_⟩
    · rw [List.mem_range]
      omega
    · rw [consecutiveLossPattern_eq, one_shiftLeft]
      simpa using hb

theorem findMinConsecutiveGo_spec (total : Nat) (R : List Int) :
    ∀ fuel start, total + 1 - start ≤ fuel →
      ((∀ len, start ≤ len → len ≤ total →
          hasNonRecoverableConsecutive total len R = false) →
        findMinConsecutiveGo total R fuel start = -1) ∧
      (∀ len, start ≤ len → len ≤ total →
        hasNonRecoverableConsecutive total len R = true →
        (∀ j, start ≤ j → j < len → hasNonRecoverableConsecutive total j R = false) →
        findMinConsecutiveGo total R fuel start = (len : Int)) := by
  intro fuel
  induction fuel with
  | zero =>
    intro start hfuel
    constructor
    · intro _
      rfl
    · intro nl h1 h2 _ _
      omega
  | succ fuel ih =>
    intro start hfuel
    have hunfold : findMinConsecutiveGo total R (fuel + 1) start =
        if start ≤ total then
          if hasNonRecoverableConsecutive total start R then (start : Int)
          else findMinConsecutiveGo total R fuel (start + 1)
        else -1 := rfl
    by_cases hst : start ≤ total
    · rw [hunfold, if_pos hst]
      constructor
      · intro hall
        rw [hall start (Nat.le_refl _) hst]
        simp only [Bool.false_eq_true, if_false]
        exact (ih (start + 1) (by omega)).1 fun nl h1 h2 => hall nl (by omega) h2
      · intro nl h1 h2 h3 h4
        rcases Nat.eq_or_lt_of_le h1 with rfl | hlt
        · rw [h3]
          simp
        · rw [h4 start (Nat.le_refl _) hlt]
          simp only [Bool.false_eq_true, if_false]
          exact (ih (start + 1) (by omega)).2 nl (by omega) h2 h3
            fun j hj1 hj2 => h4 j (by omega) hj2
    · rw [hunfold, if_neg hst]
      constructor
      · intro _
        rfl
      · intro nl h1 h2 _ _
        omega

/-- C3: `MinLostPacketsForNonRecovery` is the smallest `numLost` in
`[1, N+K]` for which some loss pattern with exactly `numLost` bits set among
the low `N+K` bits has its delivery pattern absent from the reachable set, and
`-1` when no such `numLost` exists. -/
theorem claim_C3_minLostPackets (N K : Nat) (R : List Int) :
    ((∃ nl, 1 ≤ nl ∧ nl ≤ N + K ∧ ExistsNonRecovWithCount (N + K) R nl) →
      ∃ nl, 1 ≤ nl ∧ nl ≤ N + K ∧ ExistsNonRecovWithCount (N + K) R nl ∧
        (∀ j, 1 ≤ j → j < nl → ¬ ExistsNonRecovWithCount (N + K) R j) ∧
        (CalculateRecoveryCharacteristicsFromReachable N K R).MinLostPacketsForNonRecovery
          = (nl : Int)) ∧
    ((∀ nl, 1 ≤ nl → nl ≤ N + K → ¬ ExistsNonRecovWithCount (N + K) R nl) →
      (CalculateRecoveryCharacteristicsFromReachable N K R).MinLostPacketsForNonRecovery
        = -1) := by
  constructor
  · intro hex
    classical
    have hfind := Nat.find_spec hex
    refine ⟨Nat.find hex, hfind.1, hfind.2.1, hfind.2.2, ?_, ?_⟩
    · intro j hj1 hj2 hP
      exact Nat.find_min hex hj2 ⟨hj1, by omega, hP⟩
    · show findMinLostGo N K (N + K) R ((N + K) + 1) 1 = _
      apply (findMinLostGo_spec N K (N + K) R ((N + K) + 1) 1 (by omega)).2
      · exact hfind.1
      · exact hfind.2.1
      · rw [hasNonRecoverablePattern_iff]
        exact hfind.2.2
      · intro j hj1 hj2
        have hnot : ¬ ExistsNonRecovWithCount (N + K) R j := fun hP =>
          Nat.find_min hex hj2 ⟨hj1, by omega, hP⟩
        cases h : hasNonRecoverablePattern N K (N + K) j R
        · rfl
        · exact absurd ((hasNonRecoverablePattern_iff _ _ _ _ _).mp h) hnot
  · intro hall
    show findMinLostGo N K (N + K) R ((N + K) + 1) 1 = -1
    apply (findMinLostGo_spec N K (N + K) R ((N + K) + 1) 1 (by omega)).1
    intro nl h1 h2
    cases h : hasNonRecoverablePattern N K (N + K) nl R
    · rfl
    · exact absurd ((hasNonRecoverablePattern_iff _ _ _ _ _).mp h) (hall nl h1 h2)

theorem claim_C3_minLostPackets_witness :
    (∃ nl, 1 ≤ nl ∧ nl ≤ 1 + 0 ∧ ExistsNonRecovWithCount (1 + 0) [] nl) ∧
    (∃ nl, 1 ≤ nl ∧ nl ≤ 1 + 0 ∧ ExistsNonRecovWithCount (1 + 0) [] nl ∧
      (∀ j, 1 ≤ j → j < nl → ¬ ExistsNonRecovWithCount (1 + 0) [] j) ∧
      (CalculateRecoveryCharacteristicsFromReachable 1 0 []).MinLostPacketsForNonRecovery
        = (nl : Int)) :=
  have hex : ∃ nl, 1 ≤ nl ∧ nl ≤ 1 + 0 ∧ ExistsNonRecovWithCount (1 + 0) [] nl :=
    ⟨1, by omega, by omega, 1, by decide, by decide, fun h => List.not_mem_nil _ h⟩
  ⟨hex, (claim_C3_minLostPackets 1 0 []).1 hex⟩

/-- C6: `MinConsecutiveLostForNonRecovery` is the smallest run length in
`[1, N+K]` such that some window of that many consecutive losses has its
delivery pattern absent from the reachable set, `-1` when none exists; and
when the reachable set contains all `2^(N+K)` vertices the result record is
`(-1, -1)`. -/
theorem claim_C6_minConsecutive (N K : Nat) (R : List Int) :
    ((∃ len, 1 ≤ len ∧ len ≤ N + K ∧ ExistsNonRecovRun (N + K) R len) →
      ∃ len, 1 ≤ len ∧ len ≤ N + K ∧ ExistsNonRecovRun (N + K) R len ∧
        (∀ j, 1 ≤ j → j < len → ¬ ExistsNonRecovRun (N + K) R j) ∧
        (CalculateRecoveryCharacteristicsFromReachable N K R).MinConsecutiveLostForNonRecovery
          = (len : Int)) ∧
    ((∀ len, 1 ≤ len → len ≤ N + K → ¬ ExistsNonRecovRun (N + K) R len) →
      (CalculateRecoveryCharacteristicsFromReachable N K R).MinConsecutiveLostForNonRecovery
        = -1) ∧
    ((∀ v : Nat, v < 2 ^ (N + K) → ((v : Nat) : Int) ∈ R) →
      CalculateRecoveryCharacteristicsFromReachable N K R =
        { MinLostPacketsForNonRecovery := -1, MinConsecutiveLostForNonRecovery := -1 }) := by
  have hchar : ((∃ len, 1 ≤ len ∧ len ≤ N + K ∧ ExistsNonRecovRun (N + K) R len) →
      ∃ len, 1 ≤ len ∧ len ≤ N + K ∧ ExistsNonRecovRun (N + K) R len ∧
        (∀ j, 1 ≤ j → j < len → ¬ ExistsNonRecovRun (N + K) R j) ∧
        (CalculateRecoveryCharacteristicsFromReachable N K R).MinConsecutiveLostForNonRecovery
          = (len : Int)) := by
    intro hex
    classical
    have hfind := Nat.find_spec hex
    refine ⟨Nat.find hex, hfind.1, hfind.2.1, hfind.2.2, ?_, ?_⟩
    · intro j hj1 hj2 hP
      exact Nat.find_min hex hj2 ⟨hj1, by omega, hP⟩
    · show findMinConsecutiveGo (N + K) R ((N + K) + 1) 1 = _
      apply (findMinConsecutiveGo_spec (N + K) R ((N + K) + 1) 1 (by omega)).2
      · exact hfind.1
      · exact hfind.2.1
      · rw [hasNonRecoverableConsecutive_iff _ _ _ hfind.1 hfind.2.1]
        exact hfind.2.2
      · intro j hj1 hj2
        have hnot : ¬ ExistsNonRecovRun (N + K) R j := fun hP =>
          Nat.find_min hex hj2 ⟨hj1, by omega, hP⟩
        cases h : hasNonRecoverableConsecutive (N + K) j R
        · rfl
        · exact absurd ((hasNonRecoverableConsecutive_iff _ _ _ hj1 (by omega)).mp h) hnot
  have hneg : ((∀ len, 1 ≤ len → len ≤ N + K → ¬ ExistsNonRecovRun (N + K) R len) →
      (CalculateRecoveryCharacteristicsFromReachable N K R).MinConsecutiveLostForNonRecovery
        = -1) := by
    intro hall
    show findMinConsecutiveGo (N + K) R ((N + K) + 1) 1 = -1
    apply (findMinConsecutiveGo_spec (N + K) R ((N + K) + 1) 1 (by omega)).1
    intro len h1 h2
    cases h : hasNonRecoverableConsecutive (N + K) len R
    · rfl
    · exact absurd ((hasNonRecoverableConsecutive_iff _ _ _ h1 h2).mp h) (hall len h1 h2)
  refine ⟨hchar, hneg, ?_⟩
  intro hfull
  have hnoloss : ∀ pat, pat < 2 ^ (N + K) → ¬ NonRecoverableLoss (N + K) R pat := by
    intro pat hpat hnr
    have hd : (2 ^ (N + K) - 1) ^^^ pat < 2 ^ (N + K) :=
      Nat.xor_lt_two_pow (by
        have : 1 ≤ (2 : Nat) ^ (N + K) := Nat.one_le_two_pow
        omega) hpat
    exact hnr (hfull _ hd)
  have h1 : (CalculateRecoveryCharacteristicsFromReachable N K R).MinLostPacketsForNonRecovery
      = -1 := by
    show findMinLostGo N K (N + K) R ((N + K) + 1) 1 = -1
    apply (findMinLostGo_spec N K (N + K) R ((N + K) + 1) 1 (by omega)).1
    intro nl hnl1 hnl2
    cases h : hasNonRecoverablePattern N K (N + K) nl R
    · rfl
    · obtain ⟨pat, hplt, _, hnr⟩ := (hasNonRecoverablePattern_iff _ _ _ _ _).mp h
      exact (hnoloss pat hplt hnr).elim
  have h2 : (CalculateRecoveryCharacteristicsFromReachable N K R).MinConsecutiveLostForNonRecovery
      = -1 := by
    apply hneg
    rintro len hl1 hl2 ⟨start, hrange, hnr⟩
    apply hnoloss _ ?_ hnr
    have e1 : (2 : Nat) ^ len * 2 ^ start = 2 ^ (start + len) := by
      rw [two_pow_mul_two_pow]
      exact congrArg (fun x => (2 : Nat) ^ x) (by omega)
    have e2 : (2 : Nat) ^ (start + len) ≤ 2 ^ (N + K) :=
      Nat.pow_le_pow_right (by omega) (by omega)
    have e3 : (2 ^ len - 1) * 2 ^ start < 2 ^ len * 2 ^ start := by
      apply Nat.mul_lt_mul_of_lt_of_le
      · have : 1 ≤ (2 : Nat) ^ len := Nat.one_le_two_pow
        omega
      · exact Nat.le_refl _
      · exact Nat.pos_pow_of_pos start (by omega)
    omega
  cases hrec : CalculateRecoveryCharacteristicsFromReachable N K R with
  | mk a b =>
    rw [hrec] at h1 h2
    simp only at h1 h2
    rw [h1, h2]

theorem claim_C6_minConsecutive_witness :
    (∀ v : Nat, v < 2 ^ (1 + 0) → ((v : Nat) : Int) ∈ ([0, 1] : List Int)) ∧
    CalculateRecoveryCharacteristicsFromReachable 1 0 [0, 1] =
      { MinLostPacketsForNonRecovery := -1, MinConsecutiveLostForNonRecovery := -1 } :=
  ⟨by decide, (claim_C6_minConsecutive 1 0 [0, 1]).2.2 (by decide)⟩

theorem cacheLookup_cons (kv : cacheKey × ℚ) (c : List (cacheKey × ℚ)) (k : cacheKey) :
    cacheLookup (kv :: c) k = if kv.1 = k then some kv.2 else cacheLookup c k := by
  unfold cacheLookup
  rw [List.find?_cons]
  by_cases h : kv.1 = k
  · simp [h]
  · simp [h]

theorem cacheLookup_valid {m : GilbertElliotLossModel} {c : List (cacheKey × ℚ)}
    (hc : CacheValid m c) {k : cacheKey} {v : ℚ} (h : cacheLookup c k = some v) :
    v = m.computePatternProbabilityDP k.pattern k.length k.initState := by
  unfold cacheLookup at h
  match hfind : c.find? fun kv => kv.1 = k with
  | some kv =>
    rw [hfind] at h
    have hmem : kv ∈ c := List.mem_of_find?_eq_some hfind
    have hkey : kv.1 = k := by
      have := List.find?_some hfind
      simpa using this
    have := hc kv hmem
    simp only [Option.some_inj] at h
    rw [← h, this, hkey]
  | none =>
    rw [hfind] at h
    simp at h

theorem calculatePatternProbability_spec (m : GilbertElliotLossModel)
    (c : List (cacheKey × ℚ)) (p l i : Nat) (hc : CacheValid m c) :
    (m.calculatePatternProbability c p l i).1 =
      (if l = 0 then 1 else m.computePatternProbabilityDP p l i) ∧
    CacheValid m (m.calculatePatternProbability c p l i).2 ∧
    (∀ k x, cacheLookup c k = some x →
      cacheLookup (m.calculatePatternProbability c p l i).2 k = some x) ∧
    (l ≠ 0 → cacheLookup (m.calculatePatternProbability c p l i).2 ⟨p, l, i⟩ =
      some (m.computePatternProbabilityDP p l i)) ∧
    ((cacheLookup c ⟨p, l, i⟩).isSome → (m.calculatePatternProbability c p l i).2 = c) := by
  unfold GilbertElliotLossModel.calculatePatternProbability
  by_cases hl : l = 0
  · rw [if_pos hl]
    exact ⟨by rw [if_pos hl], hc, fun k x h => h, fun h => absurd hl h, fun _ => rfl⟩
  · rw [if_neg hl]
    match hlook : cacheLookup c ⟨p, l, i⟩ with
    | some prob =>
      refine ⟨?_, hc, fun k x h => h, fun _ => ?_, fun _ => rfl⟩
      · rw [if_neg hl]
        exact cacheLookup_valid hc hlook
      · rw [hlook, cacheLookup_valid hc hlook]
    | none =>
      refine ⟨by rw [if_neg hl], ?_, ?_, ?_, ?_⟩
      · intro kv hkv
        rcases List.mem_cons.mp hkv with rfl | hkv
        · rfl
        · exact hc kv hkv
      · intro k x h
        rw [cacheLookup_cons]
        by_cases hk : (⟨p, l, i⟩ : cacheKey) = k
        · rw [← hk] at h
          rw [hlook] at h
          exact absurd h (by simp)
        · rw [if_neg hk]
          exact h
      · intro _
        rw [cacheLookup_cons, if_pos rfl]
      · intro hsome
        simp at hsome

theorem calculateProbabilityS_spec (m : GilbertElliotLossModel)
    (c : List (cacheKey × ℚ)) (v N : Nat) (hc : CacheValid m c) :
    (m.CalculateProbabilityS c v N).1 =
      (if N = 0 then 0 else
        m.steadyState0 * m.computePatternProbabilityDP v N 0 +
          m.steadyState1 * m.computePatternProbabilityDP v N 1) ∧
    CacheValid m (m.CalculateProbabilityS c v N).2 ∧
    (N ≠ 0 →
      cacheLookup (m.CalculateProbabilityS c v N).2 ⟨v, N, 0⟩ =
        some (m.computePatternProbabilityDP v N 0) ∧
      cacheLookup (m.CalculateProbabilityS c v N).2 ⟨v, N, 1⟩ =
        some (m.computePatternProbabilityDP v N 1)) ∧
    ((cacheLookup c ⟨v, N, 0⟩).isSome ∧ (cacheLookup c ⟨v, N, 1⟩).isSome →
      (m.CalculateProbabilityS c v N).2 = c) := by
  unfold GilbertElliotLossModel.CalculateProbabilityS
  by_cases hN : N = 0
  · rw [if_pos hN]
    exact ⟨by rw [if_pos hN], hc, fun h => absurd hN h, fun _ => rfl⟩
  · rw [if_neg hN]
    obtain ⟨hv0, hc0, hpres0, hkey0, hunch0⟩ :=
      calculatePatternProbability_spec m c v N 0 hc
    obtain ⟨hv1, hc1, hpres1, hkey1, hunch1⟩ :=
      calculatePatternProbability_spec m (m.calculatePatternProbability c v N 0).2 v N 1 hc0
    rw [if_neg hN] at hv0 hv1
    refine ⟨?_, hc1, ?_, ?_⟩
    · simp only [if_neg hN]
      rw [hv0, hv1]
    · intro _
      constructor
      · exact hpres1 _ _ (hkey0 hN)
      · exact hkey1 hN
    · rintro ⟨hs0, hs1⟩
      show (m.calculatePatternProbability (m.calculatePatternProbability c v N 0).2 v N 1).2 = c
      have he0 : (m.calculatePatternProbability c v N 0).2 = c := hunch0 hs0
      rw [he0] at hunch1 ⊢
      exact hunch1 hs1

/-- C9: with a valid cache, calling `CalculateProbability` twice with the same
arguments returns the identical value and leaves the cache untouched on the
second call (it is served from the cache), and clearing the cache and
recomputing returns the same value: the result never depends on cache
state. -/
theorem claim_C9_cache_determinism (pe0 pe1 p01 p10 : ℚ) (v N : Nat)
    (c : List (cacheKey × ℚ))
    (hc : CacheValid (NewGilbertElliotLossModel pe0 pe1 p01 p10) c) :
    ((NewGilbertElliotLossModel pe0 pe1 p01 p10).CalculateProbabilityS
        ((NewGilbertElliotLossModel pe0 pe1 p01 p10).CalculateProbabilityS c v N).2 v N).1 =
      ((NewGilbertElliotLossModel pe0 pe1 p01 p10).CalculateProbabilityS c v N).1 ∧
    ((NewGilbertElliotLossModel pe0 pe1 p01 p10).CalculateProbabilityS
        ((NewGilbertElliotLossModel pe0 pe1 p01 p10).CalculateProbabilityS c v N).2 v N).2 =
      ((NewGilbertElliotLossModel pe0 pe1 p01 p10).CalculateProbabilityS c v N).2 ∧
    ((NewGilbertElliotLossModel pe0 pe1 p01 p10).CalculateProbabilityS
        (GilbertElliotLossModel.ClearCache
          ((NewGilbertElliotLossModel pe0 pe1 p01 p10).CalculateProbabilityS c v N).2) v N).1 =
      ((NewGilbertElliotLossModel pe0 pe1 p01 p10).CalculateProbabilityS c v N).1 := by
  set m := NewGilbertElliotLossModel pe0 pe1 p01 p10 with hm
  obtain ⟨hval1, hvalid1, hkeys1, _⟩ := calculateProbabilityS_spec m c v N hc
  obtain ⟨hval2, hvalid2, _, hunch2⟩ :=
    calculateProbabilityS_spec m (m.CalculateProbabilityS c v N).2 v N hvalid1
  have hempty : CacheValid m (GilbertElliotLossModel.ClearCache
      (m.CalculateProbabilityS c v N).2) := by
    intro kv hkv
    exact absurd hkv (List.not_mem_nil kv)
  obtain ⟨hval3, _, _, _⟩ := calculateProbabilityS_spec m
    (GilbertElliotLossModel.ClearCache (m.CalculateProbabilityS c v N).2) v N hempty
  refine ⟨by rw [hval2, hval1], ?_, by rw [hval3, hval1]⟩
  by_cases hN : N = 0
  · subst hN
    show (m.CalculateProbabilityS _ v 0).2 = _
    unfold GilbertElliotLossModel.CalculateProbabilityS
    rw [if_pos rfl, if_pos rfl]
  · obtain ⟨hk0, hk1⟩ := hkeys1 hN
    exact hunch2 ⟨by rw [hk0]; rfl, by rw [hk1]; rfl⟩

theorem claim_C9_cache_determinism_witness :
    CacheValid (NewGilbertElliotLossModel (1 / 2) (1 / 3) (1 / 4) (1 / 5)) [] ∧
    ((NewGilbertElliotLossModel (1 / 2) (1 / 3) (1 / 4) (1 / 5)).CalculateProbabilityS
        ((NewGilbertElliotLossModel (1 / 2) (1 / 3) (1 / 4) (1 / 5)).CalculateProbabilityS
          [] 5 3).2 5 3).1 =
      ((NewGilbertElliotLossModel (1 / 2) (1 / 3) (1 / 4) (1 / 5)).CalculateProbabilityS
        [] 5 3).1 :=
  have hc : CacheValid (NewGilbertElliotLossModel (1 / 2) (1 / 3) (1 / 4) (1 / 5)) [] :=
    fun kv hkv => absurd hkv (List.not_mem_nil kv)
  ⟨hc, (claim_C9_cache_determinism (1 / 2) (1 / 3) (1 / 4) (1 / 5) 5 3 [] hc).1⟩

theorem steadyState_sum (pe0 pe1 p01 p10 : ℚ) :
    (NewGilbertElliotLossModel pe0 pe1 p01 p10).steadyState0 +
      (NewGilbertElliotLossModel pe0 pe1 p01 p10).steadyState1 = 1 := by
  unfold NewGilbertElliotLossModel
  by_cases hq : p01 + p10 > 0
  · rw [if_pos hq]
    show p10 / (p01 + p10) + p01 / (p01 + p10) = 1
    have hne : p01 + p10 ≠ 0 := by positivity
    field_simp
    ring
  · rw [if_neg hq]
    norm_num

/-- C8: the stored steady-state probabilities follow the documented formulas
(`0.5` each in the degenerate case, with no failure), they sum to `1`, and
`GetAverageLossProbability` is `π₀·pe0 + π₁·pe1`. -/
theorem claim_C8_steady_state (pe0 pe1 p01 p10 : ℚ)
    (h0 : 0 ≤ pe0) (h1 : pe0 ≤ 1) (h2 : 0 ≤ pe1) (h3 : pe1 ≤ 1)
    (h4 : 0 ≤ p01) (h5 : p01 ≤ 1) (h6 : 0 ≤ p10) (h7 : p10 ≤ 1) :
    (p01 + p10 > 0 →
      (NewGilbertElliotLossModel pe0 pe1 p01 p10).steadyState0 = p10 / (p01 + p10) ∧
      (NewGilbertElliotLossModel pe0 pe1 p01 p10).steadyState1 = p01 / (p01 + p10)) ∧
    (p01 + p10 = 0 →
      (NewGilbertElliotLossModel pe0 pe1 p01 p10).steadyState0 = 1 / 2 ∧
      (NewGilbertElliotLossModel pe0 pe1 p01 p10).steadyState1 = 1 / 2) ∧
    (NewGilbertElliotLossModel pe0 pe1 p01 p10).steadyState0 +
      (NewGilbertElliotLossModel pe0 pe1 p01 p10).steadyState1 = 1 ∧
    (NewGilbertElliotLossModel pe0 pe1 p01 p10).GetAverageLossProbability =
      (NewGilbertElliotLossModel pe0 pe1 p01 p10).steadyState0 * pe0 +
        (NewGilbertElliotLossModel pe0 pe1 p01 p10).steadyState1 * pe1 := by
  refine ⟨?_, ?_, steadyState_sum pe0 pe1 p01 p10, ?_⟩
  · intro hq
    unfold NewGilbertElliotLossModel
    rw [if_pos hq]
    exact ⟨rfl, rfl⟩
  · intro hq
    unfold NewGilbertElliotLossModel
    rw [if_neg (by rw [hq]; norm_num)]
    exact ⟨rfl, rfl⟩
  · unfold NewGilbertElliotLossModel GilbertElliotLossModel.GetAverageLossProbability
    by_cases hq : p01 + p10 > 0
    · rw [if_pos hq]
    · rw [if_neg hq]

theorem claim_C8_steady_state_witness :
    ((0 : ℚ) ≤ 1 / 2 ∧ (1 / 2 : ℚ) ≤ 1) ∧
    (NewGilbertElliotLossModel (1 / 2) (1 / 2) (1 / 2) (1 / 2)).steadyState0 +
      (NewGilbertElliotLossModel (1 / 2) (1 / 2) (1 / 2) (1 / 2)).steadyState1 = 1 :=
  ⟨⟨by norm_num, by norm_num⟩,
    (claim_C8_steady_state (1 / 2) (1 / 2) (1 / 2) (1 / 2) (by norm_num) (by norm_num)
      (by norm_num) (by norm_num) (by norm_num) (by norm_num) (by norm_num)
      (by norm_num)).2.2.1⟩

theorem newGE_diag_fields (p : ℚ) :
    NewGilbertElliotLossModel p p 0 0 =
      { Pe0 := p, Pe1 := p, P01 := 0, P10 := 0,
        steadyState0 := 1 / 2, steadyState1 := 1 / 2 } := by
  unfold NewGilbertElliotLossModel
  rw [if_neg (by norm_num)]

theorem geDPTable_succ (m : GilbertElliotLossModel) (pattern s len : Nat) :
    geDPTable m pattern s (len + 1) =
      (if pattern.testBit len then
          (geDPTable m pattern s len).1 * (1 - m.P01) * (1 - m.Pe0) +
            (geDPTable m pattern s len).2 * m.P10 * (1 - m.Pe0)
        else
          (geDPTable m pattern s len).1 * (1 - m.P01) * m.Pe0 +
            (geDPTable m pattern s len).2 * m.P10 * m.Pe0,
        if pattern.testBit len then
          (geDPTable m pattern s len).1 * m.P01 * (1 - m.Pe1) +
            (geDPTable m pattern s len).2 * (1 - m.P10) * (1 - m.Pe1)
        else
          (geDPTable m pattern s len).1 * m.P01 * m.Pe1 +
            (geDPTable m pattern s len).2 * (1 - m.P10) * m.Pe1) := rfl

theorem count_zeros_succ (pattern len : Nat) :
    ((List.range (len + 1)).filter fun i => !pattern.testBit i).length =
      ((List.range len).filter fun i => !pattern.testBit i).length +
        (if pattern.testBit len then 0 else 1) := by
  rw [List.range_succ, List.filter_append, List.length_append]
  by_cases hb : pattern.testBit len <;> simp [hb]

theorem count_ones_succ (pattern len : Nat) :
    ((List.range (len + 1)).filter fun i => pattern.testBit i).length =
      ((List.range len).filter fun i => pattern.testBit i).length +
        (if pattern.testBit len then 1 else 0) := by
  rw [List.range_succ, List.filter_append, List.length_append]
  by_cases hb : pattern.testBit len <;> simp [hb]

theorem geDP_diag (p : ℚ) (pattern : Nat) : ∀ len,
    (geDPTable (NewGilbertElliotLossModel p p 0 0) pattern 0 len).1 =
      p ^ ((List.range len).filter fun i => !pattern.testBit i).length *
        (1 - p) ^ ((List.range len).filter fun i => pattern.testBit i).length ∧
    (geDPTable (NewGilbertElliotLossModel p p 0 0) pattern 0 len).2 = 0 ∧
    (geDPTable (NewGilbertElliotLossModel p p 0 0) pattern 1 len).1 = 0 ∧
    (geDPTable (NewGilbertElliotLossModel p p 0 0) pattern 1 len).2 =
      p ^ ((List.range len).filter fun i => !pattern.testBit i).length *
        (1 - p) ^ ((List.range len).filter fun i => pattern.testBit i).length := by
  rw [newGE_diag_fields]
  intro len
  induction len with
  | zero =>
    refine ⟨?_, ?_, ?_, ?_⟩ <;> simp [geDPTable]
  | succ len ih =>
    obtain ⟨ih1, ih2, ih3, ih4⟩ := ih
    rw [count_zeros_succ, count_ones_succ]
    refine ⟨?_, ?_, ?_, ?_⟩ <;>
      rw [geDPTable_succ] <;>
      by_cases hbit : pattern.testBit len <;>
      simp only [hbit, Bool.false_eq_true, eq_self_iff_true, if_true, if_false,
        ite_true, ite_false, ih1, ih2, ih3, ih4] <;>
      ring

/-- C7: a Gilbert-Elliott model with `pe0 = pe1 = p` and no transitions
computes exactly the independent-loss probability, for every vertex and `N`. -/
theorem claim_C7_markov_degenerate (p : ℚ) (h0 : 0 ≤ p) (h1 : p ≤ 1) (v N : Nat) :
    (NewGilbertElliotLossModel p p 0 0).CalculateProbability v N =
      (NewRandomLossModel p).CalculateProbability v N := by
  have hc : CacheValid (NewGilbertElliotLossModel p p 0 0) [] :=
    fun kv hkv => absurd hkv (List.not_mem_nil kv)
  have hval := (calculateProbabilityS_spec (NewGilbertElliotLossModel p p 0 0) [] v N hc).1
  show ((NewGilbertElliotLossModel p p 0 0).CalculateProbabilityS [] v N).1 = _
  rw [hval]
  by_cases hN : N = 0
  · rw [if_pos hN]
    unfold RandomLossModel.CalculateProbability
    rw [if_pos hN]
  · rw [if_neg hN]
    obtain ⟨d1, d2, d3, d4⟩ := geDP_diag p v N
    unfold GilbertElliotLossModel.computePatternProbabilityDP
    rw [d1, d2, d3, d4]
    have hss0 : (NewGilbertElliotLossModel p p 0 0).steadyState0 = 1 / 2 := by
      rw [newGE_diag_fields]
    have hss1 : (NewGilbertElliotLossModel p p 0 0).steadyState1 = 1 / 2 := by
      rw [newGE_diag_fields]
    rw [hss0, hss1]
    unfold RandomLossModel.CalculateProbability NewRandomLossModel
    rw [if_neg hN]
    show (1 : ℚ) / 2 * _ + 1 / 2 * _ = p ^ _ * (1 - p) ^ _
    ring

theorem claim_C7_markov_degenerate_witness :
    ((0 : ℚ) ≤ 1 / 2 ∧ (1 / 2 : ℚ) ≤ 1) ∧
    (NewGilbertElliotLossModel (1 / 2) (1 / 2) 0 0).CalculateProbability 5 3 =
      (NewRandomLossModel (1 / 2)).CalculateProbability 5 3 :=
  ⟨⟨by norm_num, by norm_num⟩,
    claim_C7_markov_degenerate (1 / 2) (by norm_num) (by norm_num) 5 3⟩

theorem geDPTable_congr (m : GilbertElliotLossModel) :
    ∀ (len p1 p2 s : Nat), (∀ i, i < len → p1.testBit i = p2.testBit i) →
      geDPTable m p1 s len = geDPTable m p2 s len := by
  intro len
  induction len with
  | zero =>
    intro p1 p2 s _
    rfl
  | succ len ih =>
    intro p1 p2 s h
    rw [geDPTable_succ, geDPTable_succ, ih p1 p2 s fun i hi => h i (by omega),
      h len (by omega)]

theorem geDP_sum (m : GilbertElliotLossModel) :
    ∀ (n s : Nat), ∑ v ∈ Finset.range (2 ^ n),
      ((geDPTable m v s n).1 + (geDPTable m v s n).2) = 1 := by
  intro n
  induction n with
  | zero =>
    intro s
    rw [pow_zero, Finset.range_one, Finset.sum_singleton]
    by_cases hs : s = 0 <;> simp [geDPTable, hs]
  | succ n ih =>
    intro s
    have hsplit : (2 : Nat) ^ (n + 1) = 2 ^ n + 2 ^ n := by rw [pow_succ]; omega
    have hdisj : Disjoint (Finset.range (2 ^ n))
        ((Finset.range (2 ^ n)).map (addLeftEmbedding (2 ^ n))) := by
      rw [Finset.disjoint_left]
      intro x hx hx2
      rw [Finset.mem_range] at hx
      rw [Finset.mem_map] at hx2
      obtain ⟨y, _, hxy⟩ := hx2
      rw [addLeftEmbedding_apply] at hxy
      omega
    rw [hsplit, Finset.range_add_eq_union, Finset.sum_union hdisj, Finset.sum_map]
    have hterm : ∀ v ∈ Finset.range (2 ^ n),
        ((geDPTable m v s (n + 1)).1 + (geDPTable m v s (n + 1)).2) +
          ((geDPTable m (addLeftEmbedding (2 ^ n) v) s (n + 1)).1 +
            (geDPTable m (addLeftEmbedding (2 ^ n) v) s (n + 1)).2) =
          (geDPTable m v s n).1 + (geDPTable m v s n).2 := by
      intro v hv
      rw [Finset.mem_range] at hv
      have hbitv : v.testBit n = false := Nat.testBit_lt_two_pow hv
      have hbithigh : (addLeftEmbedding (2 ^ n) v).testBit n = true := by
        rw [addLeftEmbedding_apply, Nat.testBit_two_pow_add_eq, hbitv]
        rfl
      have htail : geDPTable m (addLeftEmbedding (2 ^ n) v) s n = geDPTable m v s n := by
        apply geDPTable_congr
        intro i hi
        rw [addLeftEmbedding_apply, Nat.testBit_two_pow_add_gt hi]
      rw [geDPTable_succ, geDPTable_succ, htail, hbitv, hbithigh]
      simp only [Bool.false_eq_true, if_true, if_false, ite_true, ite_false]
      ring
    rw [← Finset.sum_add_distrib, Finset.sum_congr rfl hterm, ih s]

theorem count_append_congr (v w n : Nat) (h : ∀ i, i < n → v.testBit i = w.testBit i) :
    ((List.range n).filter fun i => !v.testBit i).length =
      ((List.range n).filter fun i => !w.testBit i).length ∧
    ((List.range n).filter fun i => v.testBit i).length =
      ((List.range n).filter fun i => w.testBit i).length := by
  constructor <;>
    (congr 1; apply List.filter_congr; intro i hi; rw [List.mem_range] at hi; rw [h i hi])

theorem random_factor_sum (p : ℚ) : ∀ n,
    ∑ v ∈ Finset.range (2 ^ n),
      (p ^ ((List.range n).filter fun i => !(v : Nat).testBit i).length *
        (1 - p) ^ ((List.range n).filter fun i => (v : Nat).testBit i).length) = 1 := by
  intro n
  induction n with
  | zero =>
    rw [pow_zero, Finset.range_one, Finset.sum_singleton]
    simp
  | succ n ih =>
    have hsplit : (2 : Nat) ^ (n + 1) = 2 ^ n + 2 ^ n := by rw [pow_succ]; omega
    have hdisj : Disjoint (Finset.range (2 ^ n))
        ((Finset.range (2 ^ n)).map (addLeftEmbedding (2 ^ n))) := by
      rw [Finset.disjoint_left]
      intro x hx hx2
      rw [Finset.mem_range] at hx
      rw [Finset.mem_map] at hx2
      obtain ⟨y, _, hxy⟩ := hx2
      rw [addLeftEmbedding_apply] at hxy
      omega
    rw [hsplit, Finset.range_add_eq_union, Finset.sum_union hdisj, Finset.sum_map]
    have hterm : ∀ v ∈ Finset.range (2 ^ n),
        (p ^ ((List.range (n + 1)).filter fun i => !(v : Nat).testBit i).length *
          (1 - p) ^ ((List.range (n + 1)).filter fun i => (v : Nat).testBit i).length) +
        (p ^ ((List.range (n + 1)).filter
            fun i => !(addLeftEmbedding (2 ^ n) v : Nat).testBit i).length *
          (1 - p) ^ ((List.range (n + 1)).filter
            fun i => (addLeftEmbedding (2 ^ n) v : Nat).testBit i).length) =
        p ^ ((List.range n).filter fun i => !(v : Nat).testBit i).length *
          (1 - p) ^ ((List.range n).filter fun i => (v : Nat).testBit i).length := by
      intro v hv
      rw [Finset.mem_range] at hv
      have hbitv : v.testBit n = false := Nat.testBit_lt_two_pow hv
      have hbithigh : (addLeftEmbedding (2 ^ n) v : Nat).testBit n = true := by
        rw [addLeftEmbedding_apply, Nat.testBit_two_pow_add_eq, hbitv]
        rfl
      obtain ⟨hcz, hco⟩ := count_append_congr (addLeftEmbedding (2 ^ n) v) v n
        fun i hi => by rw [addLeftEmbedding_apply, Nat.testBit_two_pow_add_gt hi]
      rw [count_zeros_succ, count_ones_succ, count_zeros_succ, count_ones_succ,
        hbitv, hbithigh, hcz, hco]
      simp only [Bool.false_eq_true, if_true, if_false, ite_true, ite_false]
      ring
    rw [← Finset.sum_add_distrib, Finset.sum_congr rfl hterm, ih]

/-- C5: for `N ≥ 1` and model parameters in `[0,1]`, the probabilities of the
`2^N` delivery patterns sum to exactly `1`, for both the random loss model and
the Gilbert-Elliott loss model. -/
theorem claim_C5_probability_sums (N : Nat) (hN : 1 ≤ N) :
    (∀ p : ℚ, 0 ≤ p → p ≤ 1 →
      ∑ v ∈ Finset.range (2 ^ N), (NewRandomLossModel p).CalculateProbability v N = 1) ∧
    (∀ pe0 pe1 p01 p10 : ℚ, 0 ≤ pe0 → pe0 ≤ 1 → 0 ≤ pe1 → pe1 ≤ 1 →
      0 ≤ p01 → p01 ≤ 1 → 0 ≤ p10 → p10 ≤ 1 →
      ∑ v ∈ Finset.range (2 ^ N),
        (NewGilbertElliotLossModel pe0 pe1 p01 p10).CalculateProbability v N = 1) := by
  have hNne : N ≠ 0 := by omega
  constructor
  · intro p _ _
    rw [Finset.sum_congr rfl fun v _ => by
      unfold RandomLossModel.CalculateProbability NewRandomLossModel
      rw [if_neg hNne]]
    exact random_factor_sum p N
  · intro pe0 pe1 p01 p10 _ _ _ _ _ _ _ _
    set m := NewGilbertElliotLossModel pe0 pe1 p01 p10 with hm
    have hc : CacheValid m [] := fun kv hkv => absurd hkv (List.not_mem_nil kv)
    have hstep : ∀ v ∈ Finset.range (2 ^ N), m.CalculateProbability v N =
        m.steadyState0 * ((geDPTable m v 0 N).1 + (geDPTable m v 0 N).2) +
          m.steadyState1 * ((geDPTable m v 1 N).1 + (geDPTable m v 1 N).2) := by
      intro v _
      have hval := (calculateProbabilityS_spec m [] v N hc).1
      show (m.CalculateProbabilityS [] v N).1 = _
      rw [hval, if_neg hNne]
      rfl
    rw [Finset.sum_congr rfl hstep]
    rw [Finset.sum_add_distrib, ← Finset.mul_sum, ← Finset.mul_sum,
      geDP_sum m N 0, geDP_sum m N 1, mul_one, mul_one]
    exact steadyState_sum pe0 pe1 p01 p10

theorem claim_C5_probability_sums_witness :
    (1 ≤ 1 ∧ (0 : ℚ) ≤ 1 / 2 ∧ (1 / 2 : ℚ) ≤ 1) ∧
    ∑ v ∈ Finset.range (2 ^ 1), (NewRandomLossModel (1 / 2)).CalculateProbability v 1 = 1 :=
  ⟨⟨Nat.le_refl 1, by norm_num, by norm_num⟩,
    (claim_C5_probability_sums 1 (Nat.le_refl 1)).1 (1 / 2) (by norm_num) (by norm_num)⟩
